import Mathlib

/-!
Verification of the WorldMedia channel aggregation and resolution layer
(app.js) against its natural-language specification.

The JavaScript source is shallowly embedded: strings are Lean strings
(viewed as lists of characters, ASCII fragment of the JS semantics),
absent object fields are Option, fetches are an oracle function passed
as an argument, and localStorage state is explicit.
-/

namespace WorldMedia

/-! ## JS string primitives (ASCII model) -/

/-- JS falsy-aware read of a possibly-absent string field: a missing field
behaves like the empty string for the patterns used in app.js. -/
def jsStr (o : Option String) : String := o.getD ""

/-- Characters matched by the regexp class backslash-s in the inputs we model
(ASCII whitespace). -/
def isJsWs (c : Char) : Bool :=
  c == ' ' || c == '\t' || c == '\n' || c == '\r' || c == '\x0b' || c == '\x0c'

/-- String.prototype.toLowerCase, per character (ASCII model). -/
def jsToLower (s : String) : String := String.mk (s.data.map Char.toLower)

/-- String.prototype.toUpperCase, per character (ASCII model). -/
def jsToUpper (s : String) : String := String.mk (s.data.map Char.toUpper)

/-- String.prototype.trim: drop leading and trailing whitespace. -/
def jsTrim (s : String) : String :=
  String.mk (((s.data.dropWhile isJsWs).reverse.dropWhile isJsWs).reverse)

/-- Sequential scan replacing each maximal run of characters satisfying p
with the single character r; the Bool argument records whether the scan is
currently inside a run.  With the flag false this is the JS
String.prototype.replace with a one-class-plus regexp and a one-character
replacement, as used twice in channelSlug. -/
def collapseRuns (p : Char → Bool) (r : Char) : List Char → Bool → List Char
  | [], _ => []
  | c :: rest, inRun =>
    if p c then
      if inRun then collapseRuns p r rest true
      else r :: collapseRuns p r rest true
    else c :: collapseRuns p r rest false

/-- Characters kept by the slug character class [a-z0-9-]
(codepoints 97-122, 48-57 and 45). -/
def isSlugChar (c : Char) : Bool :=
  (97 ≤ c.toNat && c.toNat ≤ 122) || (48 ≤ c.toNat && c.toNat ≤ 57)
    || c.toNat == 45

/-- Drop a single leading dash if present. -/
def dropOneDash : List Char → List Char
  | [] => []
  | c :: rest => if c = '-' then rest else c :: rest

/-- The JS replace of the regexp anchored-leading-dash-or-trailing-dash
(global) with the empty string: removes one leading and one trailing dash
(a single character cannot serve as both, and the two matches cannot
overlap). -/
def trimEdgeDash (l : List Char) : List Char :=
  (dropOneDash ((dropOneDash l).reverse)).reverse

/-- channelSlug from app.js, as a function of the channel's name field:
const name = (ch.name or-else "channel").toLowerCase();
return name.replace(whitespace-runs, "-").replace(non-slug-chars, "")
  .replace(dash-runs, "-").replace(edge-dashes, "") or-else "channel". -/
def channelSlug (name : Option String) : String :=
  let base := if jsStr name = "" then "channel" else jsStr name
  let lowered := (jsToLower base).data
  let core := trimEdgeDash
    (collapseRuns (fun c => c == '-') '-'
      ((collapseRuns isJsWs '-' lowered false).filter isSlugChar) false)
  if core = [] then "channel" else String.mk core

/-! ## Channel record model -/

/-- One channel entry as it appears in the source JSON fragments.  Fields
that app.js reads defensively (they may be absent in the wild) are Option. -/
structure Channel where
  iso : Option String
  name : Option String
  type : Option String
  url : Option String
  source : Option String
  source_name : Option String
  logo : Option String
  description : Option String
deriving DecidableEq, Repr

/-- The slug of a channel record (channelSlug applied to its name). -/
def chSlug (ch : Channel) : String := channelSlug ch.name

/-- Convenience constructor: all fields absent. -/
def emptyChannel : Channel :=
  { iso := none, name := none, type := none, url := none,
    source := none, source_name := none, logo := none, description := none }

/-! ## Spec-side slug derivation (for claim C2)

The spec describes the slug as: lowercase, collapse whitespace runs to a
dash, strip characters outside the slug class, trim leading and trailing
dashes, fall back to "channel" on an absent name or empty result.  We
formalize that description with independent machinery (a run-dropping
recursion and dropWhile-based trimming) and compare it with channelSlug. -/

theorem length_dropWhile_le (p : α → Bool) (l : List α) :
    (l.dropWhile p).length ≤ l.length := by
  induction l with
  | nil => simp [List.dropWhile]
  | cons c rest ih =>
    simp only [List.dropWhile]
    split
    · exact Nat.le_succ_of_le ih
    · simp

/-- Run collapsing, written in the style of the spec: each maximal run of
characters satisfying p becomes one copy of r.  A run character is dropped
while its successor continues the run, and replaced by r at the end of the
run, so the recursion is structural. -/
def collapseRunsSpec (p : Char → Bool) (r : Char) : List Char → List Char
  | [] => []
  | [c] => if p c then [r] else [c]
  | c :: d :: rest =>
    if p c then
      if p d then collapseRunsSpec p r (d :: rest)
      else r :: collapseRunsSpec p r (d :: rest)
    else c :: collapseRunsSpec p r (d :: rest)

theorem collapseRuns_true_eq (p : Char → Bool) (r : Char) (l : List Char) :
    collapseRuns p r l true = collapseRuns p r (l.dropWhile p) false := by
  induction l with
  | nil => rfl
  | cons c rest ih =>
    by_cases h : p c = true
    · simp [collapseRuns, List.dropWhile, h, ih]
    · simp at h
      simp [collapseRuns, List.dropWhile, h]

theorem collapseRunsSpec_run_head (p : Char → Bool) (r : Char) (c : Char)
    (l : List Char) (hc : p c = true) :
    collapseRunsSpec p r (c :: l) = r :: collapseRunsSpec p r (l.dropWhile p) := by
  induction l generalizing c with
  | nil => simp [collapseRunsSpec, hc]
  | cons e rest ih =>
    by_cases he : p e = true
    · rw [show collapseRunsSpec p r (c :: e :: rest) = collapseRunsSpec p r (e :: rest)
          from by simp [collapseRunsSpec, hc, he]]
      rw [ih e he]
      simp [List.dropWhile, he]
    · simp only [List.dropWhile, he]
      simp at he
      simp [collapseRunsSpec, hc, he]

theorem collapseRuns_eq_spec (p : Char → Bool) (r : Char) (l : List Char) :
    collapseRuns p r l false = collapseRunsSpec p r l := by
  match l with
  | [] => rfl
  | c :: rest =>
    by_cases h : p c = true
    · rw [show collapseRuns p r (c :: rest) false = r :: collapseRuns p r rest true
          from by simp [collapseRuns, h]]
      rw [collapseRuns_true_eq, collapseRuns_eq_spec p r (rest.dropWhile p),
        collapseRunsSpec_run_head p r c rest h]
    · have hb : p c = false := by simpa using h
      rw [show collapseRuns p r (c :: rest) false = c :: collapseRuns p r rest false
          from by simp [collapseRuns, hb]]
      rw [collapseRuns_eq_spec p r rest]
      match rest with
      | [] => simp [collapseRunsSpec, hb]
      | d :: rest2 => simp [collapseRunsSpec, hb]
termination_by l.length
decreasing_by
  · exact Nat.lt_succ_of_le (length_dropWhile_le p rest)
  · simp

/-- No two adjacent dashes. -/
def NoDashRun (l : List Char) : Prop :=
  List.Chain' (fun a b => ¬(a = '-' ∧ b = '-')) l

theorem collapseDash_head_ne (l : List Char) :
    (collapseRuns (fun c => c == '-') '-' l true).head? ≠ some '-' := by
  induction l with
  | nil => simp [collapseRuns]
  | cons c rest ih =>
    by_cases h : c = '-'
    · simpa [collapseRuns, h] using ih
    · simp [collapseRuns, h]

theorem collapseDash_noDashRun (l : List Char) (b : Bool) :
    NoDashRun (collapseRuns (fun c => c == '-') '-' l b) := by
  induction l generalizing b with
  | nil => simp [collapseRuns, NoDashRun]
  | cons c rest ih =>
    by_cases h : c = '-'
    · subst h
      cases b with
      | true => simpa [collapseRuns] using ih true
      | false =>
        have e : collapseRuns (fun c => c == '-') '-' ('-' :: rest) false
            = '-' :: collapseRuns (fun c => c == '-') '-' rest true := by
          simp [collapseRuns]
        rw [NoDashRun, e, List.chain'_cons']
        refine ⟨?_, ih true⟩
        intro y hy hcon
        rw [Option.mem_def] at hy
        exact collapseDash_head_ne rest (hcon.2 ▸ hy)
    · have e : collapseRuns (fun c => c == '-') '-' (c :: rest) b
          = c :: collapseRuns (fun c => c == '-') '-' rest false := by
        simp [collapseRuns, h]
      rw [NoDashRun, e, List.chain'_cons']
      exact ⟨fun y _ hcon => h hcon.1, ih false⟩

/-- Spec-side trimming: drop every leading and trailing dash. -/
def trimDashAll (l : List Char) : List Char :=
  ((l.dropWhile (fun c => c == '-')).reverse.dropWhile (fun c => c == '-')).reverse

theorem dropWhileDash_of_noDashRun (l : List Char) (h : NoDashRun l) :
    l.dropWhile (fun c => c == '-') = dropOneDash l := by
  match l with
  | [] => rfl
  | c :: rest =>
    by_cases hc : c = '-'
    · subst hc
      rw [NoDashRun, List.chain'_cons'] at h
      have e1 : List.dropWhile (fun c => c == '-') ('-' :: rest)
          = List.dropWhile (fun c => c == '-') rest := by
        simp [List.dropWhile]
      rw [e1]
      have e2 : dropOneDash ('-' :: rest) = rest := by simp [dropOneDash]
      rw [e2]
      match rest with
      | [] => rfl
      | d :: rest2 =>
        have hd : ¬ (d = '-') := by
          intro hd
          exact h.1 d (by simp) ⟨rfl, hd⟩
        have hdb : (d == '-') = false := by simp [hd]
        simp [List.dropWhile, hdb]
    · have hcb : (c == '-') = false := by simp [hc]
      simp [List.dropWhile, dropOneDash, hcb, hc]

theorem noDashRun_reverse (l : List Char) (h : NoDashRun l) : NoDashRun l.reverse := by
  rw [NoDashRun, List.chain'_reverse]
  exact h.imp (fun a b hab ⟨h1, h2⟩ => hab ⟨h2, h1⟩)

theorem noDashRun_dropOneDash (l : List Char) (h : NoDashRun l) :
    NoDashRun (dropOneDash l) := by
  match l with
  | [] => exact h
  | c :: rest =>
    by_cases hc : c = '-'
    · have e : dropOneDash (c :: rest) = rest := by simp [dropOneDash, hc]
      rw [e]
      exact List.Chain'.tail h
    · have e : dropOneDash (c :: rest) = c :: rest := by simp [dropOneDash, hc]
      rw [e]
      exact h

theorem trimEdgeDash_eq_trimDashAll (l : List Char) (h : NoDashRun l) :
    trimEdgeDash l = trimDashAll l := by
  rw [trimEdgeDash, trimDashAll,
    dropWhileDash_of_noDashRun l h,
    dropWhileDash_of_noDashRun _ (noDashRun_reverse _ (noDashRun_dropOneDash l h))]

/-- The slug derivation exactly as the claim words it: lowercase, collapse
whitespace runs to a dash, strip non slug characters, trim leading and
trailing dashes, with an absent name or empty result falling back to
"channel".  (No collapsing of dash runs.) -/
def slugSpecLiteral (name : Option String) : String :=
  match name with
  | none => "channel"
  | some s =>
    let core := trimDashAll
      ((collapseRunsSpec isJsWs '-' (s.data.map Char.toLower)).filter isSlugChar)
    if core = [] then "channel" else String.mk core

/-- The amended slug derivation: as the claim, but additionally collapsing
runs of dashes to a single dash before trimming (which the code does with
its replace of dash-runs). -/
def slugSpecAmended (name : Option String) : String :=
  match name with
  | none => "channel"
  | some s =>
    let core := trimDashAll
      (collapseRunsSpec (fun c => c == '-') '-'
        ((collapseRunsSpec isJsWs '-' (s.data.map Char.toLower)).filter isSlugChar))
    if core = [] then "channel" else String.mk core

theorem channelSlug_eq_amended (name : Option String) :
    channelSlug name = slugSpecAmended name := by
  match name with
  | none => decide
  | some s =>
    by_cases hs : s = ""
    · subst hs; decide
    · simp only [channelSlug, slugSpecAmended, jsStr, Option.getD_some, hs, if_false,
        jsToLower]
      rw [trimEdgeDash_eq_trimDashAll _ (collapseDash_noDashRun _ false)]
      rw [collapseRuns_eq_spec (fun c => c == '-') '-' _]
      rw [collapseRuns_eq_spec isJsWs '-' _]

/-- C2: the claim fails on the code as worded.  The code additionally
collapses runs of dashes to a single dash.  On the name "a - b" the
claimed step sequence (lowercase, whitespace runs to dash, strip, trim
edges) yields "a---b" whereas channelSlug yields "a-b". -/
theorem channelSlug_literal_counterexample :
    channelSlug (some "a - b") = "a-b" ∧
    slugSpecLiteral (some "a - b") = "a---b" ∧
    channelSlug (some "a - b") ≠ slugSpecLiteral (some "a - b") := by
  refine ⟨by decide, by decide, by decide⟩

/-- C2 (amended): channelSlug is exactly the claimed derivation once the
step "collapse runs of dashes to a single dash" is inserted before the
edge trimming; the three concrete examples of the claim hold, as does the
fallback for an absent name. -/
theorem channelSlug_spec :
    (∀ name, channelSlug name = slugSpecAmended name) ∧
    channelSlug (some "Al Jazeera English") = "al-jazeera-english" ∧
    channelSlug (some "  ") = "channel" ∧
    channelSlug (some "Canal+") = "canal" ∧
    channelSlug none = "channel" :=
  ⟨channelSlug_eq_amended, by decide, by decide, by decide, by decide⟩

/-! ## Character arithmetic lemmas -/

theorem char_toNat_ofNat_small (n : Nat) (h : n < 55296) :
    (Char.ofNat n).toNat = n := by
  rw [Char.ofNat, dif_pos (Or.inl h)]
  simp [Char.ofNatAux, Char.toNat, UInt32.toNat, BitVec.toNat_ofNatLt]

theorem char_toUpper_idem (c : Char) : c.toUpper.toUpper = c.toUpper := by
  simp only [Char.toUpper]
  by_cases h : c.toNat ≥ 97 ∧ c.toNat ≤ 122
  · rw [if_pos h, char_toNat_ofNat_small (c.toNat - 32) (by omega)]
    rw [if_neg (by omega)]
  · rw [if_neg h, if_neg h]

theorem char_toLower_fixed_of_slugChar (c : Char) (h : isSlugChar c = true) :
    Char.toLower c = c := by
  simp only [isSlugChar, Bool.or_eq_true, Bool.and_eq_true, decide_eq_true_eq,
    beq_iff_eq] at h
  simp only [Char.toLower]
  rw [if_neg (by omega)]

theorem stringMapFix (f : Char → Char) (s : String) (h : ∀ c ∈ s.data, f c = c) :
    String.mk (s.data.map f) = s := by
  have e : s.data.map f = s.data.map id := List.map_congr_left h
  rw [e, List.map_id]

theorem jsToUpper_idem (s : String) : jsToUpper (jsToUpper s) = jsToUpper s := by
  simp only [jsToUpper, List.map_map]
  congr 1
  exact List.map_congr_left (fun c _ => char_toUpper_idem c)

/-! ## Character-set facts about channelSlug -/

theorem mem_collapseRuns (p : Char → Bool) (r : Char) (l : List Char) (b : Bool)
    (c : Char) (hc : c ∈ collapseRuns p r l b) : c = r ∨ c ∈ l := by
  induction l generalizing b with
  | nil => simp [collapseRuns] at hc
  | cons d rest ih =>
    by_cases hd : p d = true
    · cases b with
      | true =>
        rw [show collapseRuns p r (d :: rest) true = collapseRuns p r rest true
            from by simp [collapseRuns, hd]] at hc
        rcases ih true hc with h1 | h1
        · exact Or.inl h1
        · exact Or.inr (List.mem_cons_of_mem d h1)
      | false =>
        rw [show collapseRuns p r (d :: rest) false = r :: collapseRuns p r rest true
            from by simp [collapseRuns, hd]] at hc
        rcases List.mem_cons.mp hc with h1 | h1
        · exact Or.inl h1
        · rcases ih true h1 with h2 | h2
          · exact Or.inl h2
          · exact Or.inr (List.mem_cons_of_mem d h2)
    · rw [show collapseRuns p r (d :: rest) b = d :: collapseRuns p r rest false
          from by simp [collapseRuns, hd]] at hc
      rcases List.mem_cons.mp hc with h1 | h1
      · exact Or.inr (h1 ▸ List.mem_cons_self d rest)
      · rcases ih false h1 with h2 | h2
        · exact Or.inl h2
        · exact Or.inr (List.mem_cons_of_mem d h2)

theorem mem_dropOneDash (l : List Char) (c : Char) (hc : c ∈ dropOneDash l) :
    c ∈ l := by
  match l with
  | [] => exact hc
  | d :: rest =>
    by_cases hd : d = '-'
    · rw [show dropOneDash (d :: rest) = rest from by simp [dropOneDash, hd]] at hc
      exact List.mem_cons_of_mem d hc
    · rwa [show dropOneDash (d :: rest) = d :: rest from by simp [dropOneDash, hd]] at hc

theorem mem_trimEdgeDash (l : List Char) (c : Char) (hc : c ∈ trimEdgeDash l) :
    c ∈ l := by
  rw [trimEdgeDash] at hc
  rw [List.mem_reverse] at hc
  have h1 := mem_dropOneDash _ _ hc
  rw [List.mem_reverse] at h1
  exact mem_dropOneDash _ _ h1

theorem channelSlug_chars (name : Option String) :
    ∀ c ∈ (channelSlug name).data, isSlugChar c = true := by
  intro c hc
  rw [channelSlug] at hc
  set X := (collapseRuns isJsWs '-'
    (jsToLower (if jsStr name = "" then "channel" else jsStr name)).data false).filter
    isSlugChar with hX
  by_cases hcore : trimEdgeDash (collapseRuns (fun c => c == '-') '-' X false) = []
  · rw [if_pos hcore] at hc
    revert hc
    show c ∈ ("channel").data → isSlugChar c = true
    intro hc
    fin_cases hc <;> decide
  · rw [if_neg hcore] at hc
    have h1 := mem_trimEdgeDash _ _ hc
    rcases mem_collapseRuns _ _ _ _ _ h1 with h2 | h2
    · subst h2; decide
    · exact (List.mem_filter.mp h2).2

theorem channelSlug_lower (name : Option String) :
    jsToLower (channelSlug name) = channelSlug name := by
  simp only [jsToLower]
  exact stringMapFix _ _
    (fun c hc => char_toLower_fixed_of_slugChar c (channelSlug_chars name c hc))

theorem ite_mk_ne_empty (c : List Char) :
    (if c = [] then "channel" else String.mk c) ≠ "" := by
  split
  · decide
  · intro h
    exact (by assumption : ¬ c = []) (by simpa using congrArg String.data h)

theorem channelSlug_ne_empty (name : Option String) : channelSlug name ≠ "" :=
  ite_mk_ne_empty _

/-! ## Trash store (localStorage model: the parsed flat list) -/

/-- One trash entry as stored; fields are read defensively in app.js. -/
structure TrashEntry where
  iso : Option String
  slug : Option String
  name : Option String
deriving DecidableEq, Repr

/-- isChannelInTrash from app.js: some entry matches both the uppercased
iso and the lowercased slug. -/
def isChannelInTrash (trash : List TrashEntry) (iso slug : String) : Bool :=
  trash.any (fun e =>
    jsToUpper (jsStr e.iso) == jsToUpper iso
      && jsToLower (jsStr e.slug) == jsToLower slug)

/-! ## Source feed loader -/

/-- The JS expression (ch.url and-then ch.url.trim()) used as the dedup
key: the empty string stands for the JS falsy result of a missing, empty,
or whitespace-only url. -/
def trimmedUrl (ch : Channel) : String := jsTrim (jsStr ch.url)

/-- The accumulation loop shared by loadChannelsForCountry and
loadChannelsForCategory, over the concatenation of the fetched fragments:
a channel with a fresh nonempty trimmed url is appended and its url
remembered; a channel with no (trimmed) url is appended unconditionally;
otherwise the channel is dropped. -/
def dedupAccum (seen : List String) (acc : List Channel) :
    List Channel → List Channel
  | [] => acc
  | ch :: rest =>
    let u := trimmedUrl ch
    if u ≠ "" ∧ u ∉ seen then dedupAccum (u :: seen) (acc ++ [ch]) rest
    else if u = "" then dedupAccum seen (acc ++ [ch]) rest
    else dedupAccum seen acc rest

/-- Merge the fetched fragments in arrival order (the two nested for-loops
of the source walk exactly the concatenation of the fragments). -/
def mergeChannels (frags : List (List Channel)) : List Channel :=
  dedupAccum [] [] frags.flatten

/-- Source names, in the fixed enumeration order of app.js. -/
def CHANNEL_SOURCE_NAMES : List String :=
  ["iptv-org", "free-tv-iptv", "iprd", "famelack-channels",
   "m3u-radio-music-playlists", "insecam", "windy"]

/-- ISO3 to ISO2 exception table from app.js. -/
def ISO3_TO_ISO2_FALLBACK (c : String) : Option String :=
  if c = "FRA" then some "FR"
  else if c = "PRT" then some "PT"
  else if c = "NOR" then some "NO"
  else if c = "DEU" then some "DE"
  else if c = "GBR" then some "GB"
  else if c = "USA" then some "US"
  else none

/-- ISO2 to ISO3 exception table from app.js. -/
def ISO2_TO_ISO3 (c : String) : Option String :=
  if c = "FR" then some "FRA"
  else if c = "PT" then some "PRT"
  else if c = "NO" then some "NOR"
  else if c = "DE" then some "DEU"
  else if c = "GB" then some "GBR"
  else if c = "US" then some "USA"
  else none

/-- getChannelLoadCodes from app.js. -/
def getChannelLoadCodes (countryCode : Option String) : List String :=
  let code := jsToUpper (jsTrim (jsStr countryCode))
  if code = "" ∨ (code.length ≠ 2 ∧ code.length ≠ 3) then []
  else
    let iso2 := if code.length = 2 then code else (ISO3_TO_ISO2_FALLBACK code).getD code
    let iso3 := if code.length = 3 then some code else ISO2_TO_ISO3 code
    match iso3 with
    | some i3 => if i3 ≠ iso2 then [iso2, i3] else [iso2]
    | none => [iso2]

/-- The fragments fetched by loadChannelsForCountry, in arrival order:
candidate-code major, source-name minor.  The oracle returns the parsed
channels list of data/channels/CODE/SOURCE.json, or none for a missing or
failed fragment (silently skipped by the code). -/
def countryFragments (fetch : String → String → Option (List Channel))
    (countryCode : Option String) : List (List Channel) :=
  (getChannelLoadCodes countryCode).flatMap
    (fun code => CHANNEL_SOURCE_NAMES.filterMap (fun s => fetch code s))

/-- loadChannelsForCountry from app.js, restricted to its data path: fetch
and merge the fragments, then drop channels whose (uppercased iso, slug)
pair is in the trash. -/
def loadChannelsForCountry (fetch : String → String → Option (List Channel))
    (trash : List TrashEntry) (countryCode : Option String) : List Channel :=
  (mergeChannels (countryFragments fetch countryCode)).filter
    (fun ch => !(isChannelInTrash trash (jsToUpper (jsStr ch.iso)) (chSlug ch)))

/-- The fragments fetched by loadChannelsForCategory for a fixed category,
in source enumeration order (the oracle takes the category and the source
name). -/
def categoryFragments (fetchCat : String → String → Option (List Channel))
    (categoryName : String) : List (List Channel) :=
  CHANNEL_SOURCE_NAMES.filterMap (fun s => fetchCat categoryName s)

/-- loadChannelsForCategory from app.js, restricted to its data path. -/
def loadChannelsForCategory (fetchCat : String → String → Option (List Channel))
    (trash : List TrashEntry) (categoryName : String) : List Channel :=
  (mergeChannels (categoryFragments fetchCat categoryName)).filter
    (fun ch => !(isChannelInTrash trash (jsToUpper (jsStr ch.iso)) (chSlug ch)))

/-! ## Spec-side characterization of the merge (claim C1) -/

/-- The dedup key of a channel: its trimmed url, or no key when the url
is missing or trims to empty. -/
def urlKey (ch : Channel) : Option String :=
  if trimmedUrl ch = "" then none else some (trimmedUrl ch)

/-- Spec reading of the merge: walk the concatenated list, keeping a
channel iff it has no url key or no earlier channel of the concatenation
carries the same key (first occurrence wins); pre is the already-walked
prefix. -/
def keepFirstPos (pre : List Channel) : List Channel → List Channel
  | [] => []
  | ch :: rest =>
    if urlKey ch = none ∨ ∀ p ∈ pre, urlKey p ≠ urlKey ch
    then ch :: keepFirstPos (pre ++ [ch]) rest
    else keepFirstPos (pre ++ [ch]) rest

/-- The dedup key the claim words ask for: the exact url, with only a
missing or empty url having no key. -/
def urlKeyExact (ch : Channel) : Option String :=
  match ch.url with
  | none => none
  | some u => if u = "" then none else some u

/-- The merge as literally claimed: first occurrence wins under exact url
equality. -/
def keepFirstPosExact (pre : List Channel) : List Channel → List Channel
  | [] => []
  | ch :: rest =>
    if urlKeyExact ch = none ∨ ∀ p ∈ pre, urlKeyExact p ≠ urlKeyExact ch
    then ch :: keepFirstPosExact (pre ++ [ch]) rest
    else keepFirstPosExact (pre ++ [ch]) rest

theorem dedupAccum_eq_keepFirstPos (l : List Channel) (seen : List String)
    (acc pre : List Channel)
    (hinv : ∀ k, k ∈ seen ↔ ∃ p ∈ pre, urlKey p = some k) :
    dedupAccum seen acc l = acc ++ keepFirstPos pre l := by
  induction l generalizing seen acc pre with
  | nil => simp [dedupAccum, keepFirstPos]
  | cons ch rest ih =>
    by_cases hu : trimmedUrl ch = ""
    · have hkey : urlKey ch = none := by simp [urlKey, hu]
      rw [show dedupAccum seen acc (ch :: rest) = dedupAccum seen (acc ++ [ch]) rest
          from by simp [dedupAccum, hu]]
      rw [show keepFirstPos pre (ch :: rest) = ch :: keepFirstPos (pre ++ [ch]) rest
          from by simp [keepFirstPos, hkey]]
      rw [ih seen (acc ++ [ch]) (pre ++ [ch]) ?_]
      · simp
      · intro k
        rw [hinv k]
        constructor
        · rintro ⟨p, hp, hpk⟩
          exact ⟨p, List.mem_append_left _ hp, hpk⟩
        · rintro ⟨p, hp, hpk⟩
          rcases List.mem_append.mp hp with h | h
          · exact ⟨p, h, hpk⟩
          · simp at h
            subst h
            rw [hkey] at hpk
            cases hpk
    · have hkey : urlKey ch = some (trimmedUrl ch) := by simp [urlKey, hu]
      by_cases hseen : trimmedUrl ch ∈ seen
      · rw [show dedupAccum seen acc (ch :: rest) = dedupAccum seen acc rest
            from by simp [dedupAccum, hu, hseen]]
        have hnot : ¬ (urlKey ch = none ∨ ∀ p ∈ pre, urlKey p ≠ urlKey ch) := by
          rw [hkey]
          push_neg
          refine ⟨by simp, ?_⟩
          rcases (hinv (trimmedUrl ch)).mp hseen with ⟨p, hp, hpk⟩
          exact ⟨p, hp, by rw [hpk]⟩
        rw [show keepFirstPos pre (ch :: rest) = keepFirstPos (pre ++ [ch]) rest
            from by simp only [keepFirstPos, if_neg hnot]]
        refine ih seen acc (pre ++ [ch]) ?_
        intro k
        rw [hinv k]
        constructor
        · rintro ⟨p, hp, hpk⟩
          exact ⟨p, List.mem_append_left _ hp, hpk⟩
        · rintro ⟨p, hp, hpk⟩
          rcases List.mem_append.mp hp with h | h
          · exact ⟨p, h, hpk⟩
          · simp at h
            subst h
            rw [hkey] at hpk
            exact (Option.some.inj hpk) ▸ (hinv _).mp hseen
      · rw [show dedupAccum seen acc (ch :: rest)
              = dedupAccum (trimmedUrl ch :: seen) (acc ++ [ch]) rest
            from by simp [dedupAccum, hu, hseen]]
        have hcond : urlKey ch = none ∨ ∀ p ∈ pre, urlKey p ≠ urlKey ch := by
          right
          intro p hp hpk
          rw [hkey] at hpk
          exact hseen ((hinv (trimmedUrl ch)).mpr ⟨p, hp, hpk⟩)
        rw [show keepFirstPos pre (ch :: rest) = ch :: keepFirstPos (pre ++ [ch]) rest
            from by simp only [keepFirstPos, if_pos hcond]]
        rw [ih (trimmedUrl ch :: seen) (acc ++ [ch]) (pre ++ [ch]) ?_]
        · simp
        · intro k
          constructor
          · intro hk
            rcases List.mem_cons.mp hk with h | h
            · exact ⟨ch, List.mem_append_right _ (by simp), by rw [hkey, h]⟩
            · rcases (hinv k).mp h with ⟨p, hp, hpk⟩
              exact ⟨p, List.mem_append_left _ hp, hpk⟩
          · rintro ⟨p, hp, hpk⟩
            rcases List.mem_append.mp hp with h | h
            · exact List.mem_cons_of_mem _ ((hinv k).mpr ⟨p, h, hpk⟩)
            · simp at h
              subst h
              rw [hkey] at hpk
              rw [← Option.some.inj hpk]
              exact List.mem_cons_self _ _

theorem mergeChannels_eq_keepFirstPos (frags : List (List Channel)) :
    mergeChannels frags = keepFirstPos [] frags.flatten := by
  rw [mergeChannels, dedupAccum_eq_keepFirstPos _ [] [] [] (by simp)]
  simp

/-! ## Concrete feeds for the end-to-end examples -/

/-- The FR channel of the claim's end-to-end example (iptv-org fragment). -/
def tf1 : Channel :=
  { emptyChannel with iso := some "FR", name := some "TF1", url := some "http://a" }

/-- The FR channel of the claim's end-to-end example (free-tv-iptv fragment). -/
def tf1hd : Channel :=
  { emptyChannel with iso := some "FR", name := some "TF1 HD", url := some "http://a" }

/-- Fetch oracle holding exactly the two fragments of the claim's FR
example. -/
def fetchFRExample (code s : String) : Option (List Channel) :=
  if code = "FR" ∧ s = "iptv-org" then some [tf1]
  else if code = "FR" ∧ s = "free-tv-iptv" then some [tf1hd]
  else none

/-- Channel whose url carries a leading space. -/
def cuA : Channel := { emptyChannel with name := some "A", url := some " http://a" }

/-- Channel with the same url as cuA but without the space. -/
def cuB : Channel := { emptyChannel with name := some "B", url := some "http://a" }

/-- Fetch oracle with two fragments whose urls differ only by whitespace. -/
def fetchTrimExample (code s : String) : Option (List Channel) :=
  if code = "AA" ∧ s = "iptv-org" then some [cuA]
  else if code = "AA" ∧ s = "free-tv-iptv" then some [cuB]
  else none

/-- C1: the claim fails on the code as worded.  The code deduplicates by
the TRIMMED url, not by exact url match: with fragments carrying the urls
" http://a" and "http://a" (distinct, both nonempty), the loader keeps
only the first channel, while the claimed exact-url dedup keeps both. -/
theorem merged_feed_exact_url_counterexample :
    loadChannelsForCountry fetchTrimExample [] (some "AA") = [cuA] ∧
    keepFirstPosExact [] (countryFragments fetchTrimExample (some "AA")).flatten
      = [cuA, cuB] ∧
    loadChannelsForCountry fetchTrimExample [] (some "AA")
      ≠ keepFirstPosExact [] (countryFragments fetchTrimExample (some "AA")).flatten := by
  refine ⟨by decide, by decide, by decide⟩

/-- C1 (amended): with an empty trash store, the merged feed for a country
or category is the concatenation of the fetched fragments in
candidate-code-major, source-name-minor order, deduplicated by the TRIMMED
url with the first occurrence winning, channels whose url is missing or
trims to empty always being appended; and the FR end-to-end example yields
exactly the single channel TF1. -/
theorem merged_feed_spec :
    (∀ fetch countryCode,
      loadChannelsForCountry fetch [] countryCode
        = keepFirstPos [] (countryFragments fetch countryCode).flatten) ∧
    (∀ fetchCat cat,
      loadChannelsForCategory fetchCat [] cat
        = keepFirstPos [] (categoryFragments fetchCat cat).flatten) ∧
    loadChannelsForCountry fetchFRExample [] (some "FR") = [tf1] := by
  refine ⟨?_, ?_, by decide⟩
  · intro fetch countryCode
    rw [loadChannelsForCountry, mergeChannels_eq_keepFirstPos]
    apply List.filter_eq_self.mpr
    intro ch _
    simp [isChannelInTrash]
  · intro fetchCat cat
    rw [loadChannelsForCategory, mergeChannels_eq_keepFirstPos]
    apply List.filter_eq_self.mpr
    intro ch _
    simp [isChannelInTrash]

/-! ## Claim C4: trashed channels never load -/

theorem isChannelInTrash_spec (trash : List TrashEntry) (ch : Channel) :
    isChannelInTrash trash (jsToUpper (jsStr ch.iso)) (chSlug ch) = true ↔
      ∃ e ∈ trash, jsToUpper (jsStr e.iso) = jsToUpper (jsStr ch.iso) ∧
        jsToLower (jsStr e.slug) = chSlug ch := by
  simp only [isChannelInTrash, List.any_eq_true, Bool.and_eq_true, beq_iff_eq,
    jsToUpper_idem, chSlug, channelSlug_lower]

/-- C4: for every load (country or category), every returned channel has a
composite key (uppercased iso, slug recomputed from the name) that is not
present in the trash store: no trash entry matches it on uppercased iso
and lowercased slug. -/
theorem trashed_never_loaded :
    (∀ fetch trash countryCode ch,
      ch ∈ loadChannelsForCountry fetch trash countryCode →
        ¬ ∃ e ∈ trash, jsToUpper (jsStr e.iso) = jsToUpper (jsStr ch.iso) ∧
            jsToLower (jsStr e.slug) = chSlug ch) ∧
    (∀ fetchCat trash cat ch,
      ch ∈ loadChannelsForCategory fetchCat trash cat →
        ¬ ∃ e ∈ trash, jsToUpper (jsStr e.iso) = jsToUpper (jsStr ch.iso) ∧
            jsToLower (jsStr e.slug) = chSlug ch) := by
  constructor
  · intro fetch trash countryCode ch hch
    rw [loadChannelsForCountry] at hch
    have h2 := (List.mem_filter.mp hch).2
    rw [Bool.not_eq_eq_eq_not, Bool.not_true] at h2
    intro hex
    rw [← isChannelInTrash_spec trash ch] at hex
    rw [h2] at hex
    cases hex
  · intro fetchCat trash cat ch hch
    rw [loadChannelsForCategory] at hch
    have h2 := (List.mem_filter.mp hch).2
    rw [Bool.not_eq_eq_eq_not, Bool.not_true] at h2
    intro hex
    rw [← isChannelInTrash_spec trash ch] at hex
    rw [h2] at hex
    cases hex

/-- C4 witness: a concrete load with a nonempty trash store, instantiating
the theorem at the channel it returns. -/
theorem trashed_never_loaded_witness :
    ¬ ∃ e ∈ [TrashEntry.mk (some "DE") (some "zdf") none],
      jsToUpper (jsStr e.iso) = jsToUpper (jsStr tf1.iso) ∧
        jsToLower (jsStr e.slug) = chSlug tf1 :=
  trashed_never_loaded.1 fetchFRExample [TrashEntry.mk (some "DE") (some "zdf") none]
    (some "FR") tf1 (by decide)

/-! ## Claim C3: country-code resolver -/

theorem jsToUpper_length (s : String) : (jsToUpper s).length = s.length := by
  show (s.data.map Char.toUpper).length = s.data.length
  exact List.length_map _ _

/-- C3: the resolver returns [] for every input whose trimmed length is
neither 2 nor 3 (including empty); for a 2-letter code it puts that code
first and appends the known alpha-3 form exactly when it exists and
differs; and the concrete examples FR, fra, ZZ behave as claimed. -/
theorem country_code_resolver_spec :
    (∀ s : Option String,
      (jsTrim (jsStr s)).length ≠ 2 → (jsTrim (jsStr s)).length ≠ 3 →
        getChannelLoadCodes s = []) ∧
    (∀ s : Option String,
      (jsToUpper (jsTrim (jsStr s))).length = 2 →
      ISO2_TO_ISO3 (jsToUpper (jsTrim (jsStr s))) = none →
        getChannelLoadCodes s = [jsToUpper (jsTrim (jsStr s))]) ∧
    (∀ (s : Option String) (c3 : String),
      (jsToUpper (jsTrim (jsStr s))).length = 2 →
      ISO2_TO_ISO3 (jsToUpper (jsTrim (jsStr s))) = some c3 →
      c3 ≠ jsToUpper (jsTrim (jsStr s)) →
        getChannelLoadCodes s = [jsToUpper (jsTrim (jsStr s)), c3]) ∧
    getChannelLoadCodes (some "FR") = ["FR", "FRA"] ∧
    getChannelLoadCodes (some "fra") = ["FR", "FRA"] ∧
    getChannelLoadCodes (some "ZZ") = ["ZZ"] ∧
    getChannelLoadCodes (some "") = [] ∧
    getChannelLoadCodes none = [] := by
  refine ⟨?_, ?_, ?_, by decide, by decide, by decide, by decide, by decide⟩
  · intro s h2 h3
    have hl := jsToUpper_length (jsTrim (jsStr s))
    rw [getChannelLoadCodes, if_pos (Or.inr ⟨by rw [hl]; exact h2, by rw [hl]; exact h3⟩)]
  · intro s h2 hnone
    have hne : jsToUpper (jsTrim (jsStr s)) ≠ "" := by
      intro he
      rw [he] at h2
      simp [String.length] at h2
    rw [getChannelLoadCodes, if_neg (by push_neg; exact ⟨hne, fun hx => absurd h2 hx⟩)]
    rw [if_pos h2, if_neg (by omega), hnone]
  · intro s c3 h2 hsome hne3
    have hne : jsToUpper (jsTrim (jsStr s)) ≠ "" := by
      intro he
      rw [he] at h2
      simp [String.length] at h2
    rw [getChannelLoadCodes, if_neg (by push_neg; exact ⟨hne, fun hx => absurd h2 hx⟩)]
    rw [if_pos h2, if_neg (by omega), hsome]
    simp [hne3]

/-! ## Claim C10: URL deep-link state -/

/-- The pair read back from the query string. -/
structure UrlState where
  country : Option String
  channel : Option String
deriving DecidableEq, Repr

/-- getUrlState from app.js: the country parameter, trimmed and
uppercased, is returned only when nonempty of length exactly 2; the
channel parameter is trimmed and returned when nonempty. -/
def getUrlState (countryParam channelParam : Option String) : UrlState :=
  { country :=
      match countryParam.map (fun s => jsToUpper (jsTrim s)) with
      | some c => if c ≠ "" ∧ c.length = 2 then some c else none
      | none => none,
    channel :=
      match channelParam.map jsTrim with
      | some c => if c ≠ "" then some c else none
      | none => none }

/-- The normalization applied by applyUrlState before selecting on the map:
a 3-letter country is mapped through the ISO3 table. -/
def applyUrlStateIso2ForMap (country : String) : String :=
  if country.length = 3 then (ISO3_TO_ISO2_FALLBACK country).getD country
  else country

/-- C10: a country selection is restored from the URL only when the
country parameter, trimmed and uppercased, has exactly 2 characters; the
3-letter value "FRA" (or any other length) yields no country; and on every
country that getUrlState can return, the ISO3-to-ISO2 branch of
applyUrlState is the identity (it is dead for URL-restored selections). -/
theorem url_state_country_spec :
    (∀ (s ch : Option String) (c : String),
      (getUrlState s ch).country = some c →
        c = jsToUpper (jsTrim (jsStr s)) ∧ c.length = 2) ∧
    (∀ (s : String) (ch : Option String),
      (jsToUpper (jsTrim s)).length = 2 →
        (getUrlState (some s) ch).country = some (jsToUpper (jsTrim s))) ∧
    (getUrlState (some "FRA") none).country = none ∧
    (getUrlState (some " fra ") none).country = none ∧
    (∀ (s ch : Option String) (c : String),
      (getUrlState s ch).country = some c → applyUrlStateIso2ForMap c = c) := by
  have key : ∀ (s ch : Option String) (c : String),
      (getUrlState s ch).country = some c →
        c = jsToUpper (jsTrim (jsStr s)) ∧ c.length = 2 := by
    intro s ch c hc
    match s with
    | none => simp [getUrlState] at hc
    | some s0 =>
      simp only [getUrlState, Option.map_some'] at hc
      split at hc
      · rename_i hcond
        injection hc with hc
        subst hc
        exact ⟨rfl, hcond.2⟩
      · cases hc
  refine ⟨key, ?_, by decide, by decide, ?_⟩
  · intro s ch h2
    have hne : jsToUpper (jsTrim s) ≠ "" := by
      intro he
      rw [he] at h2
      simp [String.length] at h2
    simp only [getUrlState, Option.map_some']
    rw [if_pos ⟨hne, h2⟩]
  · intro s ch c hc
    have h2 := (key s ch c hc).2
    rw [applyUrlStateIso2ForMap, if_neg (by omega)]

/-- C10 witness: the concrete query country " fr " restores the selection
FR, and the map normalization leaves it unchanged. -/
theorem url_state_country_spec_witness :
    (getUrlState (some " fr ") none).country = some (jsToUpper (jsTrim " fr ")) ∧
    applyUrlStateIso2ForMap "FR" = "FR" :=
  ⟨url_state_country_spec.2.1 " fr " none (by decide),
   url_state_country_spec.2.2.2.2 (some " fr ") none "FR" (by decide)⟩

/-- C3 witness: a concrete input of trimmed length 4 resolves to no
candidate codes, and the concrete 2-letter code DE resolves with its known
distinct alpha-3 form appended. -/
theorem country_code_resolver_spec_witness :
    getChannelLoadCodes (some " ABCD ") = [] ∧
    getChannelLoadCodes (some "de") = ["DE", "DEU"] :=
  ⟨country_code_resolver_spec.1 (some " ABCD ") (by decide) (by decide),
   country_code_resolver_spec.2.2.1 (some "de") "DEU" (by decide) (by decide) (by decide)⟩

/-! ## Favorites store data model -/

/-- One node of the favorites forest: a channel reference or a folder.
The JS items carry a type tag ("channel" or "folder"); entries created by
the store operations always populate id, iso, slug, name as strings. -/
inductive FavItem where
  | chan (id : String) (iso : String) (slug : String) (name : String)
  | folder (id : String) (name : String) (children : List FavItem)
deriving Repr

/-- The id of a favorites node. -/
def idOf : FavItem → String
  | FavItem.chan i _ _ _ => i
  | FavItem.folder i _ _ => i

/-! ## Claim C5: channel resolution -/

/-- findChannelBySlug from app.js: nothing matches the empty slug; else the
first channel whose recomputed slug equals the lowercased query. -/
def findChannelBySlug (channels : List Channel) (slug : String) : Option Channel :=
  if slug = "" then none
  else channels.find? (fun ch => chSlug ch == jsToLower slug)

/-- resolveFavoriteChannel from app.js: only channel entries resolve; the
feed is first narrowed to channels of the entry's country (case-insensitive
iso comparison) and then searched by slug. -/
def resolveFavoriteChannel (allChannels : List Channel) : FavItem → Option Channel
  | FavItem.folder _ _ _ => none
  | FavItem.chan _ iso slug _ =>
    findChannelBySlug
      (allChannels.filter (fun ch => jsToUpper (jsStr ch.iso) == jsToUpper iso))
      slug

theorem find?_filter_conj (l : List α) (p q : α → Bool) :
    (l.filter p).find? q = l.find? (fun x => p x && q x) := by
  induction l with
  | nil => rfl
  | cons x rest ih =>
    by_cases hp : p x = true
    · by_cases hq : q x = true
      · simp [List.filter_cons, List.find?_cons, hp, hq]
      · simp only [Bool.not_eq_true] at hq
        simp [List.filter_cons, List.find?_cons, hp, hq, ih]
    · simp only [Bool.not_eq_true] at hp
      simp [List.filter_cons, List.find?_cons, hp, ih]

/-- C5: resolution returns the first channel of the supplied feed whose
iso matches case-insensitively and whose recomputed slug matches the
query slug case-insensitively; when no channel matches, it returns none. -/
theorem resolve_favorite_spec :
    (∀ (allChannels : List Channel) (id iso slug name : String),
      resolveFavoriteChannel allChannels (FavItem.chan id iso slug name)
        = allChannels.find? (fun ch =>
            jsToUpper (jsStr ch.iso) == jsToUpper iso
              && jsToLower (chSlug ch) == jsToLower slug)) ∧
    (∀ (allChannels : List Channel) (id iso slug name : String),
      (∀ ch ∈ allChannels,
        ¬(jsToUpper (jsStr ch.iso) = jsToUpper iso ∧
            jsToLower (chSlug ch) = jsToLower slug)) →
      resolveFavoriteChannel allChannels (FavItem.chan id iso slug name) = none) := by
  have key : ∀ (allChannels : List Channel) (id iso slug name : String),
      resolveFavoriteChannel allChannels (FavItem.chan id iso slug name)
        = allChannels.find? (fun ch =>
            jsToUpper (jsStr ch.iso) == jsToUpper iso
              && jsToLower (chSlug ch) == jsToLower slug) := by
    intro allChannels id iso slug name
    rw [resolveFavoriteChannel, findChannelBySlug]
    by_cases hs : slug = ""
    · rw [if_pos hs]
      symm
      rw [List.find?_eq_none]
      intro ch _
      rw [chSlug, channelSlug_lower, hs]
      simp only [Bool.and_eq_true, beq_iff_eq]
      intro ⟨_, hemp⟩
      exact channelSlug_ne_empty ch.name (by simpa [jsToLower] using hemp)
    · rw [if_neg hs, find?_filter_conj]
      congr 1
      funext ch
      rw [chSlug, channelSlug_lower]
  refine ⟨key, ?_⟩
  · intro allChannels id iso slug name hnone
    rw [key]
    rw [List.find?_eq_none]
    intro ch hch
    simp only [Bool.and_eq_true, beq_iff_eq, not_and]
    intro h1 h2
    exact hnone ch hch ⟨h1, h2⟩

/-- C5 witness: a concrete feed where the second channel is the first
case-insensitive (iso, slug) match, and a not-found case. -/
theorem resolve_favorite_spec_witness :
    resolveFavoriteChannel [tf1hd, tf1] (FavItem.chan "f1" "fr" "TF1" "x") = some tf1 ∧
    resolveFavoriteChannel [tf1hd, tf1] (FavItem.chan "f1" "FR" "zdf" "x") = none :=
  ⟨by rw [resolve_favorite_spec.1 [tf1hd, tf1] "f1" "fr" "TF1" "x"]; decide,
   resolve_favorite_spec.2 [tf1hd, tf1] "f1" "FR" "zdf" "x" (by decide)⟩

/-! ## Claim C6: filter engine -/

/-- The filter controls: the active type and source toggle values (the All
option carries the empty value in the DOM) and the raw search input. -/
structure FilterState where
  selectedType : String
  selectedSource : String
  searchInput : String
deriving DecidableEq, Repr

/-- data-type attribute set when rendering a channel item:
String(ch.type or "tv").toLowerCase().trim(). -/
def itemType (ch : Channel) : String :=
  jsTrim (jsToLower (if jsStr ch.type = "" then "tv" else jsStr ch.type))

/-- data-source attribute: the trimmed source_name, or empty. -/
def itemSource (ch : Channel) : String := jsTrim (jsStr ch.source_name)

/-- Displayed channel name: ch.name or "Channel". -/
def displayedName (ch : Channel) : String :=
  if jsStr ch.name = "" then "Channel" else jsStr ch.name

/-- Displayed source label: trimmed source_name, else trimmed source,
truncated to its first 26 characters plus a horizontal ellipsis when
longer than 28 characters; empty when no source element is rendered. -/
def displayedSourceText (ch : Channel) : String :=
  let sn := itemSource ch
  let src := jsTrim (jsStr ch.source)
  let text := if sn ≠ "" then sn else src
  if text.length > 28 then String.mk (text.data.take 26) ++ "…" else text

/-- List form of JS String.prototype.startsWith. -/
def startsWithList : List Char → List Char → Bool
  | [], _ => true
  | _ :: _, [] => false
  | a :: as, b :: bs => a == b && startsWithList as bs

/-- List form of JS String.prototype.includes (needle first). -/
def isSubstrList (needle : List Char) : List Char → Bool
  | [] => startsWithList needle []
  | b :: t => startsWithList needle (b :: t) || isSubstrList needle t

/-- JS hay.includes(needle). -/
def jsIncludes (hay needle : String) : Bool := isSubstrList needle.data hay.data

/-- The filter predicate of applyChannelFilters, composed with the item
attributes and texts set when rendering the list: a channel item is kept
(not filtered out) iff typeOk, sourceOk and textOk all hold. -/
def channelKept (st : FilterState) (ch : Channel) : Bool :=
  let search := jsToLower (jsTrim st.searchInput)
  let typeOk := st.selectedType == "" || itemType ch == st.selectedType
  let sourceOk := st.selectedSource == ""
    || (!(itemSource ch == "") && itemSource ch == st.selectedSource)
  let nameStr := jsToLower (displayedName ch)
  let sourceStr := jsToLower (displayedSourceText ch)
  let textOk := search == "" || jsIncludes nameStr search || jsIncludes sourceStr search
  typeOk && sourceOk && textOk

/-- The filter predicate exactly as the claim words it: raw type and raw
source_name compared exactly, and the raw search text matched
case-insensitively against the raw name and source_name. -/
def filterSpecLiteral (st : FilterState) (ch : Channel) : Bool :=
  (st.selectedType == "" || jsStr ch.type == st.selectedType)
    && (st.selectedSource == "" || jsStr ch.source_name == st.selectedSource)
    && (st.searchInput == ""
        || jsIncludes (jsToLower (jsStr ch.name)) (jsToLower st.searchInput)
        || jsIncludes (jsToLower (jsStr ch.source_name)) (jsToLower st.searchInput))

theorem startsWithList_iff (n h : List Char) :
    startsWithList n h = true ↔ ∃ t, h = n ++ t := by
  induction n generalizing h with
  | nil => simp [startsWithList]
  | cons a as ih =>
    match h with
    | [] => simp [startsWithList]
    | b :: bs =>
      rw [startsWithList]
      simp only [Bool.and_eq_true, beq_iff_eq, ih bs]
      constructor
      · rintro ⟨rfl, t, rfl⟩
        exact ⟨t, rfl⟩
      · rintro ⟨t, ht⟩
        injection ht with h1 h2
        exact ⟨h1.symm, t, h2⟩

theorem isSubstrList_iff (n h : List Char) :
    isSubstrList n h = true ↔ ∃ t1 t2, h = t1 ++ n ++ t2 := by
  induction h with
  | nil =>
    rw [isSubstrList, startsWithList_iff]
    constructor
    · rintro ⟨t, ht⟩
      exact ⟨[], t, ht⟩
    · rintro ⟨t1, t2, ht⟩
      match t1, ht with
      | [], ht => exact ⟨t2, ht⟩
  | cons b t ih =>
    rw [isSubstrList, Bool.or_eq_true, startsWithList_iff, ih]
    constructor
    · rintro (⟨t2, ht⟩ | ⟨t1, t2, ht⟩)
      · exact ⟨[], t2, ht⟩
      · exact ⟨b :: t1, t2, by rw [ht]; simp⟩
    · rintro ⟨t1, t2, ht⟩
      match t1, ht with
      | [], ht => exact Or.inl ⟨t2, ht⟩
      | c :: t1, ht =>
        injection ht with h1 h2
        exact Or.inr ⟨t1, t2, h2⟩

theorem jsToLower_eq_empty_iff (s : String) : jsToLower s = "" ↔ s = "" := by
  constructor
  · intro h
    have h2 : s.data.map Char.toLower = ([] : List Char) := congrArg String.data h
    have h3 := List.map_eq_nil_iff.mp h2
    exact congrArg String.mk h3
  · intro h
    rw [h]
    decide

/-- C6 (amended): a channel item is kept by the filter engine iff the
type toggle is All (empty) or the normalized item type matches exactly,
and the source toggle is All or the trimmed source_name matches exactly,
and the trimmed search text is empty or occurs case-insensitively inside
the displayed name or inside the displayed (possibly truncated) source
label. -/
theorem channel_filter_spec :
    ∀ (st : FilterState) (ch : Channel),
      channelKept st ch = true ↔
        ((st.selectedType = "" ∨ itemType ch = st.selectedType) ∧
         (st.selectedSource = "" ∨ itemSource ch = st.selectedSource) ∧
         (jsTrim st.searchInput = "" ∨
          (∃ t1 t2, (jsToLower (displayedName ch)).data
              = t1 ++ (jsToLower (jsTrim st.searchInput)).data ++ t2) ∨
          (∃ t1 t2, (jsToLower (displayedSourceText ch)).data
              = t1 ++ (jsToLower (jsTrim st.searchInput)).data ++ t2))) := by
  intro st ch
  rw [channelKept]
  simp only [Bool.and_eq_true, Bool.or_eq_true, Bool.not_eq_true', beq_iff_eq,
    beq_eq_false_iff_ne, jsIncludes, isSubstrList_iff, jsToLower_eq_empty_iff]
  constructor
  · rintro ⟨⟨htype, hsource⟩, htext⟩
    refine ⟨htype, ?_, ?_⟩
    · rcases hsource with h | ⟨_, h⟩
      · exact Or.inl h
      · exact Or.inr h
    · rcases htext with (h | h) | h
      · exact Or.inl h
      · exact Or.inr (Or.inl h)
      · exact Or.inr (Or.inr h)
  · rintro ⟨htype, hsource, htext⟩
    refine ⟨⟨htype, ?_⟩, ?_⟩
    · rcases hsource with h | h
      · exact Or.inl h
      · by_cases hempty : itemSource ch = ""
        · rw [hempty] at h
          exact Or.inl h.symm
        · exact Or.inr ⟨hempty, h⟩
    · rcases htext with h | h | h
      · exact Or.inl (Or.inl h)
      · exact Or.inl (Or.inr h)
      · exact Or.inr h

/-- Channel whose source_name has 30 characters. -/
def longSourceChannel : Channel :=
  { emptyChannel with
    name := some "News",
    source_name := some "abcdefghijklmnopqrstuvwxyz0123" }

/-- Filter state searching for the tail of that source name. -/
def truncSearchState : FilterState :=
  { selectedType := "", selectedSource := "", searchInput := "0123" }

/-- C6: the claim fails on the code as worded.  The free-text search runs
against the RENDERED source label, which is truncated to 26 characters
plus an ellipsis when the source name is longer than 28 characters, so a
search for the tail "0123" of a 30-character source name matches the
claimed predicate but is filtered out by the code. -/
theorem channel_filter_truncation_counterexample :
    filterSpecLiteral truncSearchState longSourceChannel = true ∧
    channelKept truncSearchState longSourceChannel = false ∧
    channelKept truncSearchState longSourceChannel
      ≠ filterSpecLiteral truncSearchState longSourceChannel := by
  refine ⟨by decide, by decide, by decide⟩

/-! ## Favorites store operations (claims C7, C8, C9) -/

/-- Structural induction principle for the favorites forest. -/
theorem forest_induction (P : List FavItem → Prop)
    (hnil : P [])
    (hchan : ∀ i a b c rest, P rest → P (FavItem.chan i a b c :: rest))
    (hfolder : ∀ i n cs rest, P cs → P rest → P (FavItem.folder i n cs :: rest)) :
    ∀ l, P l
  | [] => hnil
  | FavItem.chan i a b c :: rest =>
      hchan i a b c rest (forest_induction P hnil hchan hfolder rest)
  | FavItem.folder i n cs :: rest =>
      hfolder i n cs rest (forest_induction P hnil hchan hfolder cs)
        (forest_induction P hnil hchan hfolder rest)

/-- flattenFavoriteChannels from app.js: the channel entries of the
forest, in depth-first order (folder headers skipped, children walked). -/
def flattenFavoriteChannels : List FavItem → List FavItem
  | [] => []
  | FavItem.chan i a b c :: rest => FavItem.chan i a b c :: flattenFavoriteChannels rest
  | FavItem.folder _ _ cs :: rest =>
      flattenFavoriteChannels cs ++ flattenFavoriteChannels rest

/-- The per-entry match used by isChannelInFavorites: case-insensitive
equality of iso and slug. -/
def favMatches (iso slug : String) : FavItem → Bool
  | FavItem.chan _ i s _ =>
      jsToUpper i == jsToUpper iso && jsToLower s == jsToLower slug
  | FavItem.folder _ _ _ => false

/-- isChannelInFavorites from app.js. -/
def isChannelInFavorites (items : List FavItem) (iso slug : String) : Bool :=
  (flattenFavoriteChannels items).any (favMatches iso slug)

/-- addChannelToFavorites from app.js; the fresh id produced by favId
(clock plus randomness) is passed as a parameter. -/
def addChannelToFavorites (freshId : String) (items : List FavItem)
    (ch : Channel) : List FavItem :=
  let iso := jsToUpper (jsStr ch.iso)
  let slug := chSlug ch
  if isChannelInFavorites items iso slug then items
  else items ++ [FavItem.chan freshId iso slug
    (if jsStr ch.name = "" then "Channel" else jsStr ch.name)]

/-- Spec-side presence of a composite key anywhere in the forest, at top
level or nested in any folder, by direct structural recursion. -/
def keyInForestB (iso slug : String) : List FavItem → Bool
  | [] => false
  | FavItem.chan _ i s _ :: rest =>
      (jsToUpper i == jsToUpper iso && jsToLower s == jsToLower slug)
        || keyInForestB iso slug rest
  | FavItem.folder _ _ cs :: rest =>
      keyInForestB iso slug cs || keyInForestB iso slug rest

/-- Number of channel entries in the forest carrying the composite key. -/
def countKey (iso slug : String) (items : List FavItem) : Nat :=
  ((flattenFavoriteChannels items).filter (favMatches iso slug)).length

theorem flattenFavoriteChannels_append (l1 l2 : List FavItem) :
    flattenFavoriteChannels (l1 ++ l2)
      = flattenFavoriteChannels l1 ++ flattenFavoriteChannels l2 := by
  induction l1 using forest_induction with
  | hnil => simp [flattenFavoriteChannels]
  | hchan i a b c rest ih => simp [flattenFavoriteChannels, ih]
  | hfolder i n cs rest ihcs ih => simp [flattenFavoriteChannels, ih]

theorem isChannelInFavorites_eq_keyInForestB (items : List FavItem)
    (iso slug : String) :
    isChannelInFavorites items iso slug = keyInForestB iso slug items := by
  induction items using forest_induction with
  | hnil => simp [isChannelInFavorites, flattenFavoriteChannels, keyInForestB]
  | hchan i a b c rest ih =>
    simp [isChannelInFavorites, flattenFavoriteChannels, keyInForestB,
      favMatches, List.any_cons] at ih ⊢
    rw [ih]
  | hfolder i n cs rest ihcs ih =>
    simp [isChannelInFavorites, flattenFavoriteChannels, keyInForestB,
      List.any_append] at ihcs ih ⊢
    rw [ihcs, ih]

/-- C9: adding a channel whose composite key already occurs anywhere in
the forest leaves the store unchanged; otherwise exactly one new channel
entry is appended at top level; and adding the same channel twice starting
from a store without the key leaves exactly one entry with that key. -/
theorem add_favorite_spec :
    (∀ (freshId : String) (items : List FavItem) (ch : Channel),
      keyInForestB (jsToUpper (jsStr ch.iso)) (chSlug ch) items = true →
        addChannelToFavorites freshId items ch = items) ∧
    (∀ (freshId : String) (items : List FavItem) (ch : Channel),
      keyInForestB (jsToUpper (jsStr ch.iso)) (chSlug ch) items = false →
        addChannelToFavorites freshId items ch
          = items ++ [FavItem.chan freshId (jsToUpper (jsStr ch.iso)) (chSlug ch)
              (if jsStr ch.name = "" then "Channel" else jsStr ch.name)]) ∧
    (∀ (id1 id2 : String) (items : List FavItem) (ch : Channel),
      countKey (jsToUpper (jsStr ch.iso)) (chSlug ch) items = 0 →
        countKey (jsToUpper (jsStr ch.iso)) (chSlug ch)
          (addChannelToFavorites id2 (addChannelToFavorites id1 items ch) ch) = 1) := by
  have hmatch : ∀ (id2 : String) (ch : Channel),
      favMatches (jsToUpper (jsStr ch.iso)) (chSlug ch)
        (FavItem.chan id2 (jsToUpper (jsStr ch.iso)) (chSlug ch)
          (if jsStr ch.name = "" then "Channel" else jsStr ch.name)) = true := by
    intro id2 ch
    simp [favMatches]
  have hcount0 : ∀ (iso slug : String) (items : List FavItem),
      countKey iso slug items = 0 → isChannelInFavorites items iso slug = false := by
    intro iso slug items h
    rw [countKey, List.length_eq_zero] at h
    rw [isChannelInFavorites]
    rw [Bool.eq_false_iff]
    intro hany
    rcases List.any_eq_true.mp hany with ⟨it, hmem, hit⟩
    have : it ∈ List.filter (favMatches iso slug) (flattenFavoriteChannels items) :=
      List.mem_filter.mpr ⟨hmem, hit⟩
    rw [h] at this
    cases this
  refine ⟨?_, ?_, ?_⟩
  · intro freshId items ch hk
    rw [addChannelToFavorites,
      if_pos (by rw [isChannelInFavorites_eq_keyInForestB]; exact hk)]
  · intro freshId items ch hk
    rw [addChannelToFavorites,
      if_neg (by rw [isChannelInFavorites_eq_keyInForestB, hk]; exact Bool.false_ne_true)]
  · intro id1 id2 items ch h0
    have hfirst : addChannelToFavorites id1 items ch
        = items ++ [FavItem.chan id1 (jsToUpper (jsStr ch.iso)) (chSlug ch)
            (if jsStr ch.name = "" then "Channel" else jsStr ch.name)] := by
      rw [addChannelToFavorites, if_neg (by rw [hcount0 _ _ _ h0]; exact Bool.false_ne_true)]
    have hcount1 : countKey (jsToUpper (jsStr ch.iso)) (chSlug ch)
        (addChannelToFavorites id1 items ch) = 1 := by
      rw [hfirst, countKey, flattenFavoriteChannels_append]
      rw [List.filter_append, List.length_append]
      have e1 : flattenFavoriteChannels [FavItem.chan id1 (jsToUpper (jsStr ch.iso))
          (chSlug ch) (if jsStr ch.name = "" then "Channel" else jsStr ch.name)]
          = [FavItem.chan id1 (jsToUpper (jsStr ch.iso)) (chSlug ch)
              (if jsStr ch.name = "" then "Channel" else jsStr ch.name)] := by
        simp [flattenFavoriteChannels]
      rw [e1]
      have h0' : (List.filter (favMatches (jsToUpper (jsStr ch.iso)) (chSlug ch))
          (flattenFavoriteChannels items)).length = 0 := h0
      rw [h0']
      simp [List.filter_cons, hmatch id1 ch]
    have hsecondInFav : isChannelInFavorites (addChannelToFavorites id1 items ch)
        (jsToUpper (jsStr ch.iso)) (chSlug ch) = true := by
      rw [hfirst, isChannelInFavorites, flattenFavoriteChannels_append, List.any_append]
      have e2 : (flattenFavoriteChannels [FavItem.chan id1 (jsToUpper (jsStr ch.iso))
          (chSlug ch) (if jsStr ch.name = "" then "Channel" else jsStr ch.name)]).any
          (favMatches (jsToUpper (jsStr ch.iso)) (chSlug ch)) = true := by
        simp only [flattenFavoriteChannels, List.any_cons, List.any_nil, Bool.or_false]
        exact hmatch id1 ch
      rw [e2, Bool.or_true]
    rw [show addChannelToFavorites id2 (addChannelToFavorites id1 items ch) ch
        = addChannelToFavorites id1 items ch from by
      rw [addChannelToFavorites, if_pos hsecondInFav]]
    exact hcount1

/-- C9 witness: double-add of TF1 into an initially empty store leaves
exactly one entry with its key. -/
theorem add_favorite_spec_witness :
    countKey (jsToUpper (jsStr tf1.iso)) (chSlug tf1)
      (addChannelToFavorites "id2" (addChannelToFavorites "id1" [] tf1) tf1) = 1 :=
  add_favorite_spec.2.2 "id1" "id2" [] tf1
    (by simp [countKey, flattenFavoriteChannels])

/-! ## Claim C8: moveFavoriteToFolder -/

/-- The findIndex-plus-splice step of removeFrom: search one level only. -/
def spliceById (targetId : String) : List FavItem → Option (List FavItem × FavItem)
  | [] => none
  | x :: rest =>
    if idOf x = targetId then some (rest, x)
    else
      match spliceById targetId rest with
      | some (r, m) => some (x :: r, m)
      | none => none

mutual

/-- removeFrom of app.js: try the current level first (findIndex +
splice), else descend into each folder in order; returns the forest with
the entry spliced out together with the entry, or none when the id does
not occur. -/
def removeFromForest (targetId : String) (l : List FavItem) :
    Option (List FavItem × FavItem) :=
  match spliceById targetId l with
  | some res => some res
  | none => removeDescend targetId l

/-- The descent loop of removeFrom: walk the level, recursing into each
folder with the full level-first search. -/
def removeDescend (targetId : String) : List FavItem → Option (List FavItem × FavItem)
  | [] => none
  | FavItem.folder i n cs :: rest =>
    match removeFromForest targetId cs with
    | some (cs2, m) => some (FavItem.folder i n cs2 :: rest, m)
    | none =>
      match removeDescend targetId rest with
      | some (r, m) => some (FavItem.folder i n cs :: r, m)
      | none => none
  | x :: rest =>
    match removeDescend targetId rest with
    | some (r, m) => some (x :: r, m)
    | none => none

end

/-- addToFolder of app.js: find the first folder with the given id in
preorder (checking each node before descending into it) and append the
moved entry to its children; none when no such folder exists. -/
def addToFolder (folderId : String) (moved : FavItem) :
    List FavItem → Option (List FavItem)
  | [] => none
  | FavItem.folder i n cs :: rest =>
    if i = folderId then some (FavItem.folder i n (cs ++ [moved]) :: rest)
    else
      match addToFolder folderId moved cs with
      | some cs2 => some (FavItem.folder i n cs2 :: rest)
      | none =>
        match addToFolder folderId moved rest with
        | some r => some (FavItem.folder i n cs :: r)
        | none => none
  | x :: rest =>
    match addToFolder folderId moved rest with
    | some r => some (x :: r)
    | none => none

/-- moveFavoriteToFolder of app.js: remove the entry wherever found (no-op
when absent), then append it to the named folder's children, falling back
to the top level when the folder does not resolve. -/
def moveFavoriteToFolder (items : List FavItem) (itemId folderId : String) :
    List FavItem :=
  match removeFromForest itemId items with
  | none => items
  | some (rest, moved) =>
    match addToFolder folderId moved rest with
    | some added => added
    | none => rest ++ [moved]

/-- Spec-side presence of an id anywhere in the forest. -/
def idInForestB (targetId : String) : List FavItem → Bool
  | [] => false
  | FavItem.chan i _ _ _ :: rest => (i == targetId) || idInForestB targetId rest
  | FavItem.folder i _ cs :: rest =>
      (i == targetId) || idInForestB targetId cs || idInForestB targetId rest

/-- Spec-side presence of a FOLDER with the given id anywhere in the
forest. -/
def folderIdInForestB (folderId : String) : List FavItem → Bool
  | [] => false
  | FavItem.chan _ _ _ _ :: rest => folderIdInForestB folderId rest
  | FavItem.folder i _ cs :: rest =>
      (i == folderId) || folderIdInForestB folderId cs
        || folderIdInForestB folderId rest

/-- A node with its children stripped: the identity-plus-payload that move
operations must preserve. -/
def nodeView : FavItem → FavItem
  | FavItem.chan i a b c => FavItem.chan i a b c
  | FavItem.folder i n _ => FavItem.folder i n []

/-- All nodes of the forest (channel entries and folder headers), in
depth-first order, children stripped. -/
def allNodes : List FavItem → List FavItem
  | [] => []
  | FavItem.chan i a b c :: rest => FavItem.chan i a b c :: allNodes rest
  | FavItem.folder i n cs :: rest =>
      FavItem.folder i n [] :: (allNodes cs ++ allNodes rest)

/-- The children of the first folder with the given id, in the preorder
used by addToFolder. -/
def findFolderChildren (folderId : String) : List FavItem → Option (List FavItem)
  | [] => none
  | FavItem.folder i _ cs :: rest =>
    if i = folderId then some cs
    else
      match findFolderChildren folderId cs with
      | some r => some r
      | none => findFolderChildren folderId rest
  | _ :: rest => findFolderChildren folderId rest

theorem allNodes_append (a b : List FavItem) :
    allNodes (a ++ b) = allNodes a ++ allNodes b := by
  induction a using forest_induction with
  | hnil => simp [allNodes]
  | hchan i x y z rest ih => simp [allNodes, ih]
  | hfolder i n cs rest ihcs ih => simp [allNodes, ih]

theorem allNodes_cons (x : FavItem) (t : List FavItem) :
    allNodes (x :: t) = allNodes [x] ++ allNodes t := by
  cases x with
  | chan i a b c => simp [allNodes]
  | folder i n cs => simp [allNodes]

theorem spliceById_some (targetId : String) (l r : List FavItem) (m : FavItem)
    (h : spliceById targetId l = some (r, m)) :
    ∃ l1 l2, l = l1 ++ m :: l2 ∧ r = l1 ++ l2 ∧ idOf m = targetId := by
  induction l generalizing r with
  | nil => simp [spliceById] at h
  | cons x rest ih =>
    rw [spliceById] at h
    by_cases hid : idOf x = targetId
    · rw [if_pos hid] at h
      injection h with h
      injection h with h1 h2
      exact ⟨[], rest, by rw [h2]; rfl, by rw [h1]; rfl, h2 ▸ hid⟩
    · rw [if_neg hid] at h
      match hs : spliceById targetId rest with
      | some (r2, m2) =>
        rw [hs] at h
        injection h with h
        injection h with h1 h2
        rcases ih r2 (by rw [hs, h2]) with ⟨l1, l2, he, hr, hm⟩
        exact ⟨x :: l1, l2, by rw [he]; rfl, by rw [← h1, hr]; simp, hm⟩
      | none => rw [hs] at h; cases h

theorem spliceById_none_of_absent (targetId : String) (l : List FavItem)
    (h : ∀ x ∈ l, idOf x ≠ targetId) : spliceById targetId l = none := by
  induction l with
  | nil => rfl
  | cons x rest ih =>
    rw [spliceById, if_neg (h x (List.mem_cons_self x rest))]
    rw [ih (fun y hy => h y (List.mem_cons_of_mem x hy))]

theorem idInForestB_cons_chan (targetId i a b c : String) (rest : List FavItem) :
    idInForestB targetId (FavItem.chan i a b c :: rest)
      = ((i == targetId) || idInForestB targetId rest) := by
  simp [idInForestB]

theorem remove_none_of_absent (targetId : String) (l : List FavItem)
    (h : idInForestB targetId l = false) :
    spliceById targetId l = none ∧ removeDescend targetId l = none ∧
      removeFromForest targetId l = none := by
  induction l using forest_induction with
  | hnil =>
    refine ⟨rfl, ?_, ?_⟩
    · simp [removeDescend]
    · simp [removeFromForest, spliceById, removeDescend]
  | hchan i a b c rest ih =>
    simp only [idInForestB, Bool.or_eq_false_iff, beq_eq_false_iff_ne] at h
    obtain ⟨hne, hrest⟩ := h
    obtain ⟨hs, hd, hf⟩ := ih hrest
    refine ⟨?_, ?_, ?_⟩
    · rw [spliceById, if_neg (by simpa [idOf] using hne), hs]
    · rw [removeDescend, hd]
      simp
    · rw [removeFromForest, spliceById, if_neg (by simpa [idOf] using hne), hs]
      rw [removeDescend, hd]
      simp
  | hfolder i n cs rest ihcs ih =>
    simp only [idInForestB, Bool.or_eq_false_iff, beq_eq_false_iff_ne] at h
    obtain ⟨⟨hne, hcs⟩, hrest⟩ := h
    obtain ⟨hs1, hd1, hf1⟩ := ihcs hcs
    obtain ⟨hs, hd, hf⟩ := ih hrest
    refine ⟨?_, ?_, ?_⟩
    · rw [spliceById, if_neg (by simpa [idOf] using hne), hs]
    · rw [removeDescend, hf1, hd]
    · rw [removeFromForest, spliceById, if_neg (by simpa [idOf] using hne), hs]
      rw [removeDescend, hf1, hd]

theorem removeDescend_cons_chan (targetId i a b c : String) (rest : List FavItem) :
    removeDescend targetId (FavItem.chan i a b c :: rest)
      = match removeDescend targetId rest with
        | some (r, m) => some (FavItem.chan i a b c :: r, m)
        | none => none := by
  rw [removeDescend]
  simp

theorem removeDescend_cons_folder (targetId i n : String) (cs rest : List FavItem) :
    removeDescend targetId (FavItem.folder i n cs :: rest)
      = match removeFromForest targetId cs with
        | some (cs2, m) => some (FavItem.folder i n cs2 :: rest, m)
        | none =>
          match removeDescend targetId rest with
          | some (r, m) => some (FavItem.folder i n cs :: r, m)
          | none => none := by
  rw [removeDescend]

theorem removeFromForest_eq (targetId : String) (l : List FavItem) :
    removeFromForest targetId l
      = match spliceById targetId l with
        | some res => some res
        | none => removeDescend targetId l := by
  rw [removeFromForest]

theorem addToFolder_cons_chan (folderId : String) (moved : FavItem)
    (i a b c : String) (rest : List FavItem) :
    addToFolder folderId moved (FavItem.chan i a b c :: rest)
      = match addToFolder folderId moved rest with
        | some r => some (FavItem.chan i a b c :: r)
        | none => none := by
  rw [addToFolder]
  simp

theorem findFolderChildren_cons_chan (folderId i a b c : String)
    (rest : List FavItem) :
    findFolderChildren folderId (FavItem.chan i a b c :: rest)
      = findFolderChildren folderId rest := by
  rw [findFolderChildren]
  simp

theorem splice_perm (targetId : String) (l r : List FavItem) (m : FavItem)
    (h : spliceById targetId l = some (r, m)) :
    List.Perm (allNodes l) (allNodes r ++ allNodes [m]) := by
  rcases spliceById_some _ _ _ _ h with ⟨l1, l2, he, hr, _⟩
  subst he
  subst hr
  rw [allNodes_append, allNodes_cons m l2, allNodes_append]
  refine List.Perm.trans (List.Perm.append_left _ List.perm_append_comm) ?_
  rw [← List.append_assoc]

theorem remove_perm_both (targetId : String) (l : List FavItem) :
    (∀ rest m, removeDescend targetId l = some (rest, m) →
      List.Perm (allNodes l) (allNodes rest ++ allNodes [m])) ∧
    (∀ rest m, removeFromForest targetId l = some (rest, m) →
      List.Perm (allNodes l) (allNodes rest ++ allNodes [m])) := by
  induction l using forest_induction with
  | hnil =>
    constructor
    · intro rest m h
      simp [removeDescend] at h
    · intro rest m h
      simp [removeFromForest, spliceById, removeDescend] at h
  | hchan i a b c rest ih =>
    have hd : ∀ r2 m, removeDescend targetId (FavItem.chan i a b c :: rest) = some (r2, m) →
        List.Perm (allNodes (FavItem.chan i a b c :: rest)) (allNodes r2 ++ allNodes [m]) := by
      intro r2 m h
      rw [removeDescend_cons_chan] at h
      match hr : removeDescend targetId rest with
      | some (r, m2) =>
        rw [hr] at h
        injection h with h
        injection h with h1 h2
        rw [← h1, ← h2]
        have hp := ih.1 r m2 hr
        rw [allNodes_cons _ rest, allNodes_cons _ r, List.append_assoc]
        exact List.Perm.append_left _ hp
      | none =>
        rw [hr] at h
        cases h
    refine ⟨hd, ?_⟩
    intro r2 m h
    rw [removeFromForest_eq] at h
    match hs : spliceById targetId (FavItem.chan i a b c :: rest) with
    | some res =>
      rw [hs] at h
      injection h with h
      subst h
      exact splice_perm _ _ _ _ hs
    | none =>
      rw [hs] at h
      exact hd r2 m h
  | hfolder i n cs rest ihcs ih =>
    have hd : ∀ r2 m, removeDescend targetId (FavItem.folder i n cs :: rest) = some (r2, m) →
        List.Perm (allNodes (FavItem.folder i n cs :: rest)) (allNodes r2 ++ allNodes [m]) := by
      intro r2 m h
      rw [removeDescend_cons_folder] at h
      match hcs : removeFromForest targetId cs with
      | some (cs2, m2) =>
        rw [hcs] at h
        injection h with h
        injection h with h1 h2
        rw [← h1, ← h2]
        have hp := ihcs.2 cs2 m2 hcs
        rw [show allNodes (FavItem.folder i n cs :: rest)
            = FavItem.folder i n [] :: (allNodes cs ++ allNodes rest) from by
          simp [allNodes]]
        rw [show allNodes (FavItem.folder i n cs2 :: rest) ++ allNodes [m2]
            = FavItem.folder i n [] :: ((allNodes cs2 ++ allNodes rest) ++ allNodes [m2])
          from by simp [allNodes]]
        refine List.Perm.cons _ ?_
        refine List.Perm.trans (List.Perm.append_right _ hp) ?_
        rw [List.append_assoc, List.append_assoc]
        exact List.Perm.append_left _ List.perm_append_comm
      | none =>
        rw [hcs] at h
        match hr : removeDescend targetId rest with
        | some (r, m2) =>
          rw [hr] at h
          injection h with h
          injection h with h1 h2
          rw [← h1, ← h2]
          have hp := ih.1 r m2 hr
          rw [show allNodes (FavItem.folder i n cs :: rest)
              = FavItem.folder i n [] :: (allNodes cs ++ allNodes rest) from by
            simp [allNodes]]
          rw [show allNodes (FavItem.folder i n cs :: r) ++ allNodes [m2]
              = FavItem.folder i n [] :: ((allNodes cs ++ allNodes r) ++ allNodes [m2])
            from by simp [allNodes]]
          refine List.Perm.cons _ ?_
          rw [List.append_assoc]
          exact List.Perm.append_left _ hp
        | none =>
          rw [hr] at h
          cases h
    refine ⟨hd, ?_⟩
    intro r2 m h
    rw [removeFromForest_eq] at h
    match hs : spliceById targetId (FavItem.folder i n cs :: rest) with
    | some res =>
      rw [hs] at h
      injection h with h
      subst h
      exact splice_perm _ _ _ _ hs
    | none =>
      rw [hs] at h
      exact hd r2 m h

theorem addToFolder_perm (folderId : String) (moved : FavItem) (l : List FavItem) :
    ∀ out, addToFolder folderId moved l = some out →
      List.Perm (allNodes out) (allNodes l ++ allNodes [moved]) := by
  induction l using forest_induction with
  | hnil =>
    intro out h
    simp [addToFolder] at h
  | hchan i a b c rest ih =>
    intro out h
    rw [addToFolder_cons_chan] at h
    match hr : addToFolder folderId moved rest with
    | some r =>
      rw [hr] at h
      injection h with h
      rw [← h]
      have hp := ih r hr
      rw [allNodes_cons _ rest, allNodes_cons _ r, List.append_assoc]
      exact List.Perm.append_left _ hp
    | none =>
      rw [hr] at h
      cases h
  | hfolder i n cs rest ihcs ih =>
    intro out h
    rw [addToFolder] at h
    by_cases hid : i = folderId
    · rw [if_pos hid] at h
      injection h with h
      rw [← h]
      rw [show allNodes (FavItem.folder i n (cs ++ [moved]) :: rest)
          = FavItem.folder i n [] :: ((allNodes cs ++ allNodes [moved]) ++ allNodes rest)
        from by simp [allNodes, allNodes_append]]
      rw [show allNodes (FavItem.folder i n cs :: rest) ++ allNodes [moved]
          = FavItem.folder i n [] :: ((allNodes cs ++ allNodes rest) ++ allNodes [moved])
        from by simp [allNodes]]
      refine List.Perm.cons _ ?_
      rw [List.append_assoc, List.append_assoc]
      exact List.Perm.append_left _ List.perm_append_comm
    · rw [if_neg hid] at h
      match hcs : addToFolder folderId moved cs with
      | some cs2 =>
        rw [hcs] at h
        injection h with h
        rw [← h]
        have hp := ihcs cs2 hcs
        rw [show allNodes (FavItem.folder i n cs2 :: rest)
            = FavItem.folder i n [] :: (allNodes cs2 ++ allNodes rest)
          from by simp [allNodes]]
        rw [show allNodes (FavItem.folder i n cs :: rest) ++ allNodes [moved]
            = FavItem.folder i n [] :: ((allNodes cs ++ allNodes rest) ++ allNodes [moved])
          from by simp [allNodes]]
        refine List.Perm.cons _ ?_
        refine List.Perm.trans (List.Perm.append_right _ hp) ?_
        rw [List.append_assoc, List.append_assoc]
        exact List.Perm.append_left _ List.perm_append_comm
      | none =>
        rw [hcs] at h
        match hrest : addToFolder folderId moved rest with
        | some r =>
          rw [hrest] at h
          injection h with h
          rw [← h]
          have hp := ih r hrest
          rw [show allNodes (FavItem.folder i n cs :: r)
              = FavItem.folder i n [] :: (allNodes cs ++ allNodes r)
            from by simp [allNodes]]
          rw [show allNodes (FavItem.folder i n cs :: rest) ++ allNodes [moved]
              = FavItem.folder i n [] :: ((allNodes cs ++ allNodes rest) ++ allNodes [moved])
            from by simp [allNodes]]
          refine List.Perm.cons _ ?_
          rw [List.append_assoc]
          exact List.Perm.append_left _ hp
        | none =>
          rw [hrest] at h
          cases h

theorem addToFolder_none_iff (folderId : String) (moved : FavItem) (l : List FavItem) :
    addToFolder folderId moved l = none ↔ folderIdInForestB folderId l = false := by
  induction l using forest_induction with
  | hnil => simp [addToFolder, folderIdInForestB]
  | hchan i a b c rest ih =>
    rw [addToFolder_cons_chan]
    rw [show folderIdInForestB folderId (FavItem.chan i a b c :: rest)
        = folderIdInForestB folderId rest from by rw [folderIdInForestB]]
    rw [← ih]
    match hr : addToFolder folderId moved rest with
    | some r => simp
    | none => simp
  | hfolder i n cs rest ihcs ih =>
    rw [addToFolder, folderIdInForestB]
    by_cases hid : i = folderId
    · rw [if_pos hid]
      simp [hid]
    · rw [if_neg hid]
      have hneq : (i == folderId) = false := by simp [hid]
      rw [hneq]
      simp only [Bool.false_or, Bool.or_eq_false_iff]
      match hcs : addToFolder folderId moved cs with
      | some cs2 =>
        simp only [Option.some.injEq]
        constructor
        · intro hfalse
          exact Option.noConfusion hfalse
        · intro ⟨h1, _⟩
          rw [← ihcs, hcs] at h1
          cases h1
      | none =>
        have h1 : folderIdInForestB folderId cs = false := ihcs.mp hcs
        rw [h1]
        match hrest : addToFolder folderId moved rest with
        | some r =>
          simp only [Option.some.injEq]
          constructor
          · intro hfalse
            exact Option.noConfusion hfalse
          · intro ⟨_, h2⟩
            rw [← ih, hrest] at h2
            cases h2
        | none => simp [ih.mp hrest]

theorem findFolderChildren_none_iff (folderId : String) (l : List FavItem) :
    findFolderChildren folderId l = none ↔ folderIdInForestB folderId l = false := by
  induction l using forest_induction with
  | hnil => simp [findFolderChildren, folderIdInForestB]
  | hchan i a b c rest ih =>
    rw [findFolderChildren_cons_chan]
    rw [show folderIdInForestB folderId (FavItem.chan i a b c :: rest)
        = folderIdInForestB folderId rest from by rw [folderIdInForestB]]
    exact ih
  | hfolder i n cs rest ihcs ih =>
    rw [findFolderChildren, folderIdInForestB]
    by_cases hid : i = folderId
    · rw [if_pos hid]
      simp [hid]
    · rw [if_neg hid]
      have hneq : (i == folderId) = false := by simp [hid]
      rw [hneq]
      simp only [Bool.false_or, Bool.or_eq_false_iff]
      match hcs : findFolderChildren folderId cs with
      | some r =>
        simp only [Option.some.injEq]
        constructor
        · intro hfalse
          exact Option.noConfusion hfalse
        · intro ⟨h1, _⟩
          rw [← ihcs, hcs] at h1
          cases h1
      | none =>
        have h1 : folderIdInForestB folderId cs = false := ihcs.mp hcs
        rw [h1]
        simp only [true_and]
        exact ih

theorem addToFolder_findFolderChildren (folderId : String) (moved : FavItem)
    (l : List FavItem) :
    ∀ out, addToFolder folderId moved l = some out →
      ∃ cs0, findFolderChildren folderId l = some cs0 ∧
        findFolderChildren folderId out = some (cs0 ++ [moved]) := by
  induction l using forest_induction with
  | hnil =>
    intro out h
    simp [addToFolder] at h
  | hchan i a b c rest ih =>
    intro out h
    rw [addToFolder_cons_chan] at h
    match hr : addToFolder folderId moved rest with
    | some r =>
      rw [hr] at h
      injection h with h
      rw [← h]
      rcases ih r hr with ⟨cs0, h1, h2⟩
      exact ⟨cs0, by rw [findFolderChildren_cons_chan]; exact h1,
        by rw [findFolderChildren_cons_chan]; exact h2⟩
    | none =>
      rw [hr] at h
      cases h
  | hfolder i n cs rest ihcs ih =>
    intro out h
    rw [addToFolder] at h
    by_cases hid : i = folderId
    · rw [if_pos hid] at h
      injection h with h
      rw [← h]
      refine ⟨cs, ?_, ?_⟩
      · rw [findFolderChildren, if_pos hid]
      · rw [findFolderChildren, if_pos hid]
    · rw [if_neg hid] at h
      match hcs : addToFolder folderId moved cs with
      | some cs2 =>
        rw [hcs] at h
        injection h with h
        rw [← h]
        rcases ihcs cs2 hcs with ⟨cs0, h1, h2⟩
        refine ⟨cs0, ?_, ?_⟩
        · rw [findFolderChildren, if_neg hid, h1]
        · rw [findFolderChildren, if_neg hid, h2]
      | none =>
        rw [hcs] at h
        match hrest : addToFolder folderId moved rest with
        | some r =>
          rw [hrest] at h
          injection h with h
          rw [← h]
          rcases ih r hrest with ⟨cs0, h1, h2⟩
          have hfcs : findFolderChildren folderId cs = none :=
            (findFolderChildren_none_iff _ _).mpr ((addToFolder_none_iff _ _ _).mp hcs)
          refine ⟨cs0, ?_, ?_⟩
          · rw [findFolderChildren, if_neg hid, hfcs, h1]
          · rw [findFolderChildren, if_neg hid, hfcs, h2]
        | none =>
          rw [hrest] at h
          cases h

/-- C8: moveToFolder is a no-op when no entry with the id exists anywhere
in the forest; it never drops an item (the multiset of all nodes,
channels and folder headers, is preserved by every call); when the entry
is found but folderId does not resolve to an existing folder in the
remaining forest, the entry is appended to the top level; and when it
does resolve, the entry is appended at the end of that folder's
children. -/
theorem move_to_folder_spec :
    (∀ items itemId folderId,
      idInForestB itemId items = false →
        moveFavoriteToFolder items itemId folderId = items) ∧
    (∀ items itemId folderId,
      List.Perm (allNodes (moveFavoriteToFolder items itemId folderId))
        (allNodes items)) ∧
    (∀ items itemId folderId rest moved,
      removeFromForest itemId items = some (rest, moved) →
      folderIdInForestB folderId rest = false →
        moveFavoriteToFolder items itemId folderId = rest ++ [moved]) ∧
    (∀ items itemId folderId rest moved,
      removeFromForest itemId items = some (rest, moved) →
      folderIdInForestB folderId rest = true →
        ∃ cs0, findFolderChildren folderId rest = some cs0 ∧
          findFolderChildren folderId (moveFavoriteToFolder items itemId folderId)
            = some (cs0 ++ [moved])) := by
  have moveEq : ∀ (items : List FavItem) (itemId folderId : String)
      (rest : List FavItem) (moved : FavItem),
      removeFromForest itemId items = some (rest, moved) →
      moveFavoriteToFolder items itemId folderId
        = match addToFolder folderId moved rest with
          | some added => added
          | none => rest ++ [moved] := by
    intro items itemId folderId rest moved hrem
    rw [moveFavoriteToFolder, hrem]
  refine ⟨?_, ?_, ?_, ?_⟩
  · intro items itemId folderId h
    rw [moveFavoriteToFolder, (remove_none_of_absent itemId items h).2.2]
  · intro items itemId folderId
    cases hrem : removeFromForest itemId items with
    | none =>
      rw [moveFavoriteToFolder, hrem]
    | some p =>
      obtain ⟨rest, moved⟩ := p
      rw [moveEq items itemId folderId rest moved hrem]
      have hr := (remove_perm_both itemId items).2 rest moved hrem
      cases hadd : addToFolder folderId moved rest with
      | some added =>
        exact (addToFolder_perm folderId moved rest added hadd).trans hr.symm
      | none =>
        refine List.Perm.trans ?_ hr.symm
        show List.Perm (allNodes (rest ++ [moved])) (allNodes rest ++ allNodes [moved])
        rw [allNodes_append]
  · intro items itemId folderId rest moved hrem hfid
    rw [moveEq items itemId folderId rest moved hrem,
      (addToFolder_none_iff folderId moved rest).mpr hfid]
  · intro items itemId folderId rest moved hrem hfid
    rw [moveEq items itemId folderId rest moved hrem]
    cases hadd : addToFolder folderId moved rest with
    | some added =>
      exact addToFolder_findFolderChildren folderId moved rest added hadd
    | none =>
      have hfalse := (addToFolder_none_iff folderId moved rest).mp hadd
      rw [hfalse] at hfid
      cases hfid

/-- C8 witness: moving a concrete channel into a concrete empty folder
appends it to the folder's children. -/
theorem move_to_folder_spec_witness :
    ∃ cs0, findFolderChildren "f" [FavItem.folder "f" "F" []] = some cs0 ∧
      findFolderChildren "f"
        (moveFavoriteToFolder
          [FavItem.folder "f" "F" [], FavItem.chan "c" "FR" "tf1" "TF1"] "c" "f")
        = some (cs0 ++ [FavItem.chan "c" "FR" "tf1" "TF1"]) :=
  move_to_folder_spec.2.2.2
    [FavItem.folder "f" "F" [], FavItem.chan "c" "FR" "tf1" "TF1"] "c" "f"
    [FavItem.folder "f" "F" []] (FavItem.chan "c" "FR" "tf1" "TF1")
    (by simp [removeFromForest, spliceById, idOf])
    (by simp [folderIdInForestB])

/-! ## Claim C7: moveFavoriteUpDown

Implementation side: the path-based algorithm of app.js (flatten the
forest depth-first with paths, find the entry, take the flat neighbor,
refuse when the parent arrays differ, else swap in the parent array).
JS compares the two parent arrays by object identity; in a JSON tree two
lists are the same object exactly when they sit at the same path, so the
embedding compares parent paths. -/

/-- The children of a node (empty for channel entries). -/
def kids : FavItem → List FavItem
  | FavItem.chan _ _ _ _ => []
  | FavItem.folder _ _ cs => cs

/-- True when the node has no children to flatten. -/
def noKids : FavItem → Bool
  | FavItem.chan _ _ _ _ => true
  | FavItem.folder _ _ cs => cs.isEmpty

/-- flatWithPath of app.js: every node in depth-first order (a folder
header counts as a position, followed immediately by its children),
paired with its path of child indices. -/
def flatWithPath (pre : List Nat) (i : Nat) : List FavItem → List (FavItem × List Nat)
  | [] => []
  | FavItem.chan a b c d :: rest =>
      (FavItem.chan a b c d, pre ++ [i]) :: flatWithPath pre (i + 1) rest
  | FavItem.folder a n cs :: rest =>
      (FavItem.folder a n cs, pre ++ [i]) ::
        (flatWithPath (pre ++ [i]) 0 cs ++ flatWithPath pre (i + 1) rest)

/-- Navigate to the child list sitting at a path of indices (the JS
reduce over the parent path). -/
def getListAt (l : List FavItem) : List Nat → Option (List FavItem)
  | [] => some l
  | i :: p =>
    match l[i]? with
    | some (FavItem.folder _ _ cs) => getListAt cs p
    | _ => none

/-- Replace the child list sitting at a path of indices. -/
def setListAt (l : List FavItem) (newL : List FavItem) : List Nat → List FavItem
  | [] => newL
  | i :: p =>
    match l[i]? with
    | some (FavItem.folder fid fn cs) =>
        l.set i (FavItem.folder fid fn (setListAt cs newL p))
    | _ => l

/-- The in-place swap of two positions of one array. -/
def listSwap (l : List FavItem) (i j : Nat) : List FavItem :=
  match l[i]?, l[j]? with
  | some a, some b => (l.set i b).set j a
  | _, _ => l

/-- moveFavoriteUpDown from app.js.  Any direction other than "up" is
down.  The index arithmetic of the source (targetIdx possibly -1 or
flat.length, both rejected) is modelled by the option tOpt. -/
def moveFavoriteUpDown (items : List FavItem) (itemId dir : String) : List FavItem :=
  let flat := flatWithPath [] 0 items
  match flat.findIdx? (fun e => idOf e.1 == itemId) with
  | none => items
  | some idx =>
    let tOpt : Option Nat :=
      if dir = "up" then (if idx = 0 then none else some (idx - 1))
      else (if idx + 1 < flat.length then some (idx + 1) else none)
    match tOpt with
    | none => items
    | some t =>
      match flat[idx]?, flat[t]? with
      | some a, some b =>
        if a.2.dropLast = b.2.dropLast then
          match getListAt items a.2.dropLast with
          | some arr =>
            match a.2.getLast?, b.2.getLast? with
            | some i, some j => setListAt items (listSwap arr i j) a.2.dropLast
            | _, _ => items
          | none => items
        else items
      | _, _ => items

/-! Spec side: the depth-first sequence and the sibling rule.  In the
flattened sequence the neighbor below an entry is its next sibling
exactly when the entry has no children, and the neighbor above is the
previous sibling exactly when that sibling has no children; in every
other case the flat neighbor lives in a different parent list (or does
not exist) and the move must leave the forest unchanged. -/

/-- The depth-first sequence of all nodes (spec side). -/
def flattenAll : List FavItem → List FavItem
  | [] => []
  | FavItem.chan i a b c :: rest => FavItem.chan i a b c :: flattenAll rest
  | FavItem.folder i n cs :: rest =>
      FavItem.folder i n cs :: (flattenAll cs ++ flattenAll rest)

mutual

/-- Does the node or any of its descendants carry the id? -/
def subtreeHas (targetId : String) : FavItem → Bool
  | FavItem.chan i _ _ _ => i == targetId
  | FavItem.folder i _ cs => i == targetId || listHas targetId cs

/-- Does any node of the forest carry the id? -/
def listHas (targetId : String) : List FavItem → Bool
  | [] => false
  | x :: rest => subtreeHas targetId x || listHas targetId rest

end

mutual

/-- The claimed behavior, walking a complete child list: find the list
holding the first depth-first occurrence of the id and apply the sibling
rule there; everywhere else the forest is unchanged. -/
def specMoveList (up : Bool) (targetId : String) : List FavItem → List FavItem
  | [] => []
  | x :: rest =>
    if subtreeHas targetId x then
      if idOf x = targetId then
        if up then x :: rest
        else
          match rest with
          | [] => [x]
          | y :: rest2 => if noKids x then y :: x :: rest2 else x :: y :: rest2
      else specDescend up targetId x :: rest
    else specMoveAux up targetId x rest

/-- The walk with the previous sibling at hand (needed for the up rule);
prev's subtree does not hold the id. -/
def specMoveAux (up : Bool) (targetId : String) (prev : FavItem) :
    List FavItem → List FavItem
  | [] => [prev]
  | y :: rest =>
    if subtreeHas targetId y then
      if idOf y = targetId then
        if up then
          if noKids prev then y :: prev :: rest else prev :: y :: rest
        else
          match rest with
          | [] => [prev, y]
          | z :: rest2 =>
            if noKids y then prev :: z :: y :: rest2 else prev :: y :: z :: rest2
      else prev :: specDescend up targetId y :: rest
    else prev :: specMoveAux up targetId y rest

/-- Descend into the node holding the first occurrence. -/
def specDescend (up : Bool) (targetId : String) : FavItem → FavItem
  | FavItem.chan i a b c => FavItem.chan i a b c
  | FavItem.folder i n cs => FavItem.folder i n (specMoveList up targetId cs)

end

/-! Infrastructure lemmas for the moveFavoriteUpDown equivalence. -/

theorem list_set_self (l : List FavItem) (i : Nat) (a : FavItem)
    (h : l[i]? = some a) : l.set i a = l := by
  induction l generalizing i with
  | nil => simp at h
  | cons x rest ih =>
    cases i with
    | zero =>
      simp at h
      rw [h]
      simp
    | succ k =>
      simp at h
      simp [List.set_cons_succ, ih k h]

theorem flatWithPath_nil (pre : List Nat) (i : Nat) :
    flatWithPath pre i [] = [] := by
  simp [flatWithPath]

theorem flatWithPath_cons (pre : List Nat) (i : Nat) (x : FavItem)
    (rest : List FavItem) :
    flatWithPath pre i (x :: rest)
      = (x, pre ++ [i]) ::
          (flatWithPath (pre ++ [i]) 0 (kids x) ++ flatWithPath pre (i + 1) rest) := by
  cases x with
  | chan a b c d => simp [flatWithPath, kids]
  | folder a n cs => simp [flatWithPath, kids]

theorem flatWithPath_append (pre : List Nat) (l1 l2 : List FavItem) :
    ∀ i, flatWithPath pre i (l1 ++ l2)
      = flatWithPath pre i l1 ++ flatWithPath pre (i + l1.length) l2 := by
  induction l1 with
  | nil => intro i; simp [flatWithPath_nil]
  | cons x rest ih =>
    intro i
    rw [List.cons_append, flatWithPath_cons, flatWithPath_cons, ih (i + 1)]
    have e : i + 1 + rest.length = i + (x :: rest).length := by
      simp
      omega
    rw [e]
    simp [List.append_assoc]

theorem flatWithPath_map_fst (l : List FavItem) :
    ∀ pre i, (flatWithPath pre i l).map Prod.fst = flattenAll l := by
  induction l using forest_induction with
  | hnil => intro pre i; simp [flatWithPath_nil, flattenAll]
  | hchan a b c d rest ih =>
    intro pre i
    rw [flatWithPath_cons]
    simp only [kids, flatWithPath_nil, List.nil_append, List.map_cons, flattenAll]
    rw [ih]
  | hfolder a n cs rest ihcs ih =>
    intro pre i
    rw [flatWithPath_cons]
    simp only [kids, List.map_cons, List.map_append, flattenAll]
    rw [ihcs, ih]

theorem listHas_eq_any (targetId : String) (l : List FavItem) :
    listHas targetId l = (flattenAll l).any (fun x => idOf x == targetId) := by
  induction l using forest_induction with
  | hnil => simp [listHas, flattenAll]
  | hchan a b c d rest ih =>
    simp only [listHas, flattenAll, List.any_cons, subtreeHas, idOf] at ih ⊢
    rw [ih]
  | hfolder a n cs rest ihcs ih =>
    simp only [listHas, flattenAll, List.any_cons, List.any_append, subtreeHas,
      idOf] at ihcs ih ⊢
    rw [ihcs, ih, Bool.or_assoc]

theorem findIdx_none_of_no_target (targetId : String) (pre : List Nat) (i : Nat)
    (l : List FavItem) (h : listHas targetId l = false) :
    (flatWithPath pre i l).findIdx? (fun e => idOf e.1 == targetId) = none := by
  rw [List.findIdx?_eq_none_iff]
  intro e he
  have hmem : e.1 ∈ flattenAll l := by
    rw [← flatWithPath_map_fst l pre i]
    exact List.mem_map_of_mem Prod.fst he
  rw [listHas_eq_any] at h
  exact Bool.not_eq_true _ ▸ (List.any_eq_false.mp h e.1 hmem)

theorem flatWithPath_path_shape (l : List FavItem) :
    ∀ pre i e, e ∈ flatWithPath pre i l →
      ∃ k s, e.2 = pre ++ (i + k) :: s ∧ k < l.length := by
  induction l using forest_induction with
  | hnil =>
    intro pre i e he
    rw [flatWithPath_nil] at he
    cases he
  | hchan a b c d rest ih =>
    intro pre i e he
    rw [flatWithPath_cons] at he
    rcases List.mem_cons.mp he with h | h
    · exact ⟨0, [], by rw [h]; simp, by simp⟩
    · simp only [kids, flatWithPath_nil, List.nil_append] at h
      rcases ih pre (i + 1) e h with ⟨k, s, hpath, hk⟩
      refine ⟨k + 1, s, ?_, by simp; omega⟩
      rw [hpath]
      have : i + 1 + k = i + (k + 1) := by omega
      rw [this]
  | hfolder a n cs rest ihcs ih =>
    intro pre i e he
    rw [flatWithPath_cons] at he
    rcases List.mem_cons.mp he with h | h
    · exact ⟨0, [], by rw [h]; simp, by simp⟩
    · simp only [kids] at h
      rcases List.mem_append.mp h with h2 | h2
      · rcases ihcs (pre ++ [i]) 0 e h2 with ⟨k, s, hpath, _⟩
        refine ⟨0, k :: s, ?_, by simp⟩
        rw [hpath]
        simp
      · rcases ih pre (i + 1) e h2 with ⟨k, s, hpath, hk⟩
        refine ⟨k + 1, s, ?_, by simp; omega⟩
        rw [hpath]
        have : i + 1 + k = i + (k + 1) := by omega
        rw [this]

theorem flatWithPath_path_length (l : List FavItem) (pre : List Nat) (i : Nat)
    (e : FavItem × List Nat) (he : e ∈ flatWithPath pre i l) :
    pre.length + 1 ≤ e.2.length := by
  rcases flatWithPath_path_shape l pre i e he with ⟨k, s, hpath, _⟩
  rw [hpath]
  simp

theorem getListAt_snoc (pre : List Nat) :
    ∀ (items L0 : List FavItem) (i : Nat) (fid fn : String) (cs : List FavItem),
      getListAt items pre = some L0 →
      L0[i]? = some (FavItem.folder fid fn cs) →
      getListAt items (pre ++ [i]) = some cs := by
  induction pre with
  | nil =>
    intro items L0 i fid fn cs h hL
    rw [getListAt] at h
    injection h with h
    subst h
    rw [List.nil_append, getListAt, hL]
    rfl
  | cons j p ih =>
    intro items L0 i fid fn cs h hL
    rw [getListAt] at h
    rw [List.cons_append, getListAt]
    match hj : items[j]? with
    | some (FavItem.folder f2 n2 cs2) =>
      rw [hj] at h
      exact ih cs2 L0 i fid fn cs h hL
    | some (FavItem.chan a b c d) =>
      rw [hj] at h
      simp at h
    | none =>
      rw [hj] at h
      simp at h

theorem getListAt_set_self (pre : List Nat) :
    ∀ (items L0 : List FavItem), getListAt items pre = some L0 →
      setListAt items L0 pre = items := by
  induction pre with
  | nil =>
    intro items L0 h
    rw [getListAt] at h
    injection h with h
    rw [setListAt, h]
  | cons j p ih =>
    intro items L0 h
    rw [getListAt] at h
    rw [setListAt]
    match hj : items[j]? with
    | some (FavItem.folder f2 n2 cs2) =>
      rw [hj] at h
      show items.set j (FavItem.folder f2 n2 (setListAt cs2 L0 p)) = items
      rw [ih cs2 L0 h]
      exact list_set_self items j _ hj
    | some (FavItem.chan a b c d) =>
      rw [hj] at h
    | none =>
      rw [hj] at h

theorem setListAt_snoc (pre : List Nat) :
    ∀ (items L0 X : List FavItem) (i : Nat) (fid fn : String) (cs : List FavItem),
      getListAt items pre = some L0 →
      L0[i]? = some (FavItem.folder fid fn cs) →
      setListAt items X (pre ++ [i])
        = setListAt items (L0.set i (FavItem.folder fid fn X)) pre := by
  induction pre with
  | nil =>
    intro items L0 X i fid fn cs h hL
    rw [getListAt] at h
    injection h with h
    subst h
    rw [List.nil_append, setListAt, setListAt, hL]
    rfl
  | cons j p ih =>
    intro items L0 X i fid fn cs h hL
    rw [getListAt] at h
    rw [List.cons_append, setListAt, setListAt]
    match hj : items[j]? with
    | some (FavItem.folder f2 n2 cs2) =>
      rw [hj] at h
      show items.set j (FavItem.folder f2 n2 (setListAt cs2 X (p ++ [i])))
          = items.set j (FavItem.folder f2 n2
              (setListAt cs2 (L0.set i (FavItem.folder fid fn X)) p))
      rw [ih cs2 L0 X i fid fn cs h hL]
    | some (FavItem.chan a b c d) =>
      rw [hj] at h
    | none =>
      rw [hj] at h

theorem set_append_ge {A : Type} :
    ∀ (l1 l2 : List A) (n : Nat) (a : A),
      (l1 ++ l2).set (l1.length + n) a = l1 ++ l2.set n a := by
  intro l1
  induction l1 with
  | nil =>
    intro l2 n a
    simp
  | cons x t ih =>
    intro l2 n a
    have hle : t.length + 1 + n = (t.length + n) + 1 := by omega
    show (x :: (t ++ l2)).set (t.length + 1 + n) a = x :: (t ++ l2.set n a)
    rw [hle]
    show x :: ((t ++ l2).set (t.length + n) a) = x :: (t ++ l2.set n a)
    rw [ih]

theorem listSwap_adjacent_up (l1 : List FavItem) (a b : FavItem) (l2 : List FavItem) :
    listSwap (l1 ++ a :: b :: l2) (l1.length + 1) l1.length = l1 ++ b :: a :: l2 := by
  have ha : (l1 ++ a :: b :: l2)[l1.length]? = some a := by
    rw [List.getElem?_append_right (Nat.le_refl _)]
    simp
  have hb : (l1 ++ a :: b :: l2)[l1.length + 1]? = some b := by
    rw [List.getElem?_append_right (Nat.le_succ_of_le (Nat.le_refl _))]
    simp [Nat.succ_sub (Nat.le_refl l1.length)]
  rw [listSwap, hb, ha]
  show ((l1 ++ a :: b :: l2).set (l1.length + 1) a).set (l1.length + 0) b
      = l1 ++ b :: a :: l2
  rw [set_append_ge l1 (a :: b :: l2) 1 a,
      set_append_ge l1 ((a :: b :: l2).set 1 a) 0 b]
  rfl

theorem listSwap_adjacent_down (l1 : List FavItem) (a b : FavItem) (l2 : List FavItem) :
    listSwap (l1 ++ a :: b :: l2) l1.length (l1.length + 1) = l1 ++ b :: a :: l2 := by
  have ha : (l1 ++ a :: b :: l2)[l1.length]? = some a := by
    rw [List.getElem?_append_right (Nat.le_refl _)]
    simp
  have hb : (l1 ++ a :: b :: l2)[l1.length + 1]? = some b := by
    rw [List.getElem?_append_right (Nat.le_succ_of_le (Nat.le_refl _))]
    simp [Nat.succ_sub (Nat.le_refl l1.length)]
  rw [listSwap, ha, hb]
  show ((l1 ++ a :: b :: l2).set (l1.length + 0) b).set (l1.length + 1) a
      = l1 ++ b :: a :: l2
  rw [set_append_ge l1 (a :: b :: l2) 0 b,
      set_append_ge l1 ((a :: b :: l2).set 0 b) 1 a]
  rfl

theorem flatWithPath_block_childless (pre : List Nat) (i : Nat) (x : FavItem)
    (hx : noKids x = true) : flatWithPath pre i [x] = [(x, pre ++ [i])] := by
  cases x with
  | chan a b c d => simp [flatWithPath]
  | folder a n cs =>
    rw [noKids] at hx
    rw [List.isEmpty_iff] at hx
    subst hx
    simp [flatWithPath]

theorem flatWithPath_ne_nil (pre : List Nat) (i : Nat) (x : FavItem)
    (rest : List FavItem) : flatWithPath pre i (x :: rest) ≠ [] := by
  rw [flatWithPath_cons]
  simp

theorem flatWithPath_block_folder (pre : List Nat) (i : Nat) (f n : String)
    (cs : List FavItem) :
    flatWithPath pre i [FavItem.folder f n cs]
      = (FavItem.folder f n cs, pre ++ [i]) :: flatWithPath (pre ++ [i]) 0 cs := by
  simp [flatWithPath]

theorem getLast?_mem_of_eq {α : Type} (l : List α) :
    ∀ e, l.getLast? = some e → e ∈ l := by
  induction l with
  | nil =>
    intro e h
    cases h
  | cons x t ih =>
    intro e h
    cases t with
    | nil =>
      simp at h
      rw [h]
      exact List.mem_cons_self _ _
    | cons y t2 =>
      rw [List.getLast?_cons_cons] at h
      exact List.mem_cons_of_mem x (ih e h)

theorem getLast?_cons_of_ne {α : Type} (x : α) (t : List α) (h : t ≠ []) :
    (x :: t).getLast? = t.getLast? := by
  cases t with
  | nil => exact absurd rfl h
  | cons y t2 => rw [List.getLast?_cons_cons]

theorem flatWithPath_block_last_deep (pre : List Nat) (i : Nat) (f n : String)
    (c0 : FavItem) (cs0 : List FavItem) :
    ∀ e, (flatWithPath pre i [FavItem.folder f n (c0 :: cs0)]).getLast? = some e →
      pre.length + 2 ≤ e.2.length := by
  intro e he
  rw [flatWithPath_block_folder] at he
  rw [getLast?_cons_of_ne _ _ (flatWithPath_ne_nil _ _ _ _)] at he
  have hmem := getLast?_mem_of_eq _ e he
  have hlen := flatWithPath_path_length (c0 :: cs0) (pre ++ [i]) 0 e hmem
  simp at hlen
  omega

theorem specMoveList_nil (up : Bool) (targetId : String) :
    specMoveList up targetId [] = [] := by
  rw [specMoveList.eq_def]

theorem specMoveList_cons (up : Bool) (targetId : String) (x : FavItem)
    (rest : List FavItem) :
    specMoveList up targetId (x :: rest) =
      if subtreeHas targetId x then
        if idOf x = targetId then
          if up then x :: rest
          else
            match rest with
            | [] => [x]
            | y :: rest2 => if noKids x then y :: x :: rest2 else x :: y :: rest2
        else specDescend up targetId x :: rest
      else specMoveAux up targetId x rest := by
  rw [specMoveList.eq_def]

theorem specMoveAux_nil (up : Bool) (targetId : String) (prev : FavItem) :
    specMoveAux up targetId prev [] = [prev] := by
  rw [specMoveAux.eq_def]

theorem specMoveAux_cons (up : Bool) (targetId : String) (prev y : FavItem)
    (rest : List FavItem) :
    specMoveAux up targetId prev (y :: rest) =
      if subtreeHas targetId y then
        if idOf y = targetId then
          if up then
            if noKids prev then y :: prev :: rest else prev :: y :: rest
          else
            match rest with
            | [] => [prev, y]
            | z :: rest2 =>
              if noKids y then prev :: z :: y :: rest2 else prev :: y :: z :: rest2
        else prev :: specDescend up targetId y :: rest
      else prev :: specMoveAux up targetId y rest := by
  rw [specMoveAux.eq_def]

theorem specDescend_chan (up : Bool) (targetId : String) (i a b c : String) :
    specDescend up targetId (FavItem.chan i a b c) = FavItem.chan i a b c := by
  rw [specDescend.eq_def]

theorem specDescend_folder (up : Bool) (targetId : String) (i n : String)
    (cs : List FavItem) :
    specDescend up targetId (FavItem.folder i n cs)
      = FavItem.folder i n (specMoveList up targetId cs) := by
  rw [specDescend.eq_def]

theorem spec_no_target (up : Bool) (targetId : String) (l : List FavItem)
    (h : listHas targetId l = false) :
    specMoveList up targetId l = l ∧
      ∀ prev, specMoveAux up targetId prev l = prev :: l := by
  induction l with
  | nil =>
    constructor
    · rw [specMoveList_nil]
    · intro prev
      rw [specMoveAux_nil]
  | cons x rest ih =>
    rw [listHas] at h
    rw [Bool.or_eq_false_iff] at h
    obtain ⟨hx, hrest⟩ := h
    obtain ⟨ih1, ih2⟩ := ih hrest
    constructor
    · rw [specMoveList_cons, if_neg (by rw [hx]; exact Bool.false_ne_true)]
      exact ih2 x
    · intro prev
      rw [specMoveAux_cons, if_neg (by rw [hx]; exact Bool.false_ne_true)]
      rw [ih2 x]

/-! General list helpers for the moveFavoriteUpDown equivalence. -/

theorem noKids_iff_kids (x : FavItem) : noKids x = (kids x).isEmpty := by
  cases x <;> simp [noKids, kids]

theorem noKids_false_elim (x : FavItem) (h : noKids x = false) :
    ∃ f n c0 cs0, x = FavItem.folder f n (c0 :: cs0) := by
  cases x with
  | chan i a b c => rw [noKids] at h; cases h
  | folder f n cs =>
    cases cs with
    | nil => rw [noKids] at h; simp at h
    | cons c0 cs0 => exact ⟨f, n, c0, cs0, rfl⟩

theorem getLast?_none_iff {A : Type} : ∀ (l : List A), l.getLast? = none ↔ l = [] := by
  intro l
  cases l with
  | nil => simp
  | cons x t =>
    constructor
    · intro h
      exfalso
      induction t generalizing x with
      | nil => cases h
      | cons y t2 ih =>
        rw [List.getLast?_cons_cons] at h
        exact ih y h
    · intro h
      exact absurd h (List.cons_ne_nil x t)

theorem getLast?_decomp {A : Type} : ∀ (l : List A) (a : A),
    l.getLast? = some a → l = l.dropLast ++ [a] := by
  intro l
  induction l with
  | nil => intro a h; cases h
  | cons x t ih =>
    intro a h
    cases t with
    | nil =>
      simp at h
      rw [h]
      rfl
    | cons y t2 =>
      rw [List.getLast?_cons_cons] at h
      show x :: y :: t2 = x :: ((y :: t2).dropLast ++ [a])
      rw [← ih a h]

theorem getLast?_append_right2 {A : Type} (s : List A) (e : A)
    (h : s.getLast? = some e) : ∀ (l : List A), (l ++ s).getLast? = some e := by
  intro l
  induction l with
  | nil => rw [List.nil_append]; exact h
  | cons a l2 ih =>
    have hs : s ≠ [] := by
      intro hh
      rw [hh] at h
      cases h
    have hne : l2 ++ s ≠ [] := by
      intro hh
      exact hs (List.append_eq_nil.mp hh).2
    rw [List.cons_append, getLast?_cons_of_ne a (l2 ++ s) hne]
    exact ih

theorem getLast?_concat2 {A : Type} (l : List A) (a : A) :
    (l ++ [a]).getLast? = some a :=
  getLast?_append_right2 [a] a rfl l

theorem findIdx_first {A : Type} (p : A → Bool) (c : A) (tl : List A)
    (hc : p c = true) :
    ∀ (l : List A) (i : Nat), (∀ e ∈ l, p e = false) →
      List.findIdx? p (l ++ c :: tl) i = some (i + l.length) := by
  intro l
  induction l with
  | nil =>
    intro i h
    rw [List.nil_append, List.findIdx?_cons, if_pos hc]
    rfl
  | cons x rest ih =>
    intro i h
    rw [List.cons_append, List.findIdx?_cons,
      if_neg (by rw [h x (List.mem_cons_self x rest)]; exact Bool.false_ne_true)]
    rw [ih (i + 1) (fun e he => h e (List.mem_cons_of_mem x he))]
    have e1 : i + 1 + rest.length = i + (x :: rest).length := by
      rw [List.length_cons]
      omega
    rw [e1]

theorem getElem?_append_length {A : Type} :
    ∀ (l : List A) (c : A) (tl : List A), (l ++ c :: tl)[l.length]? = some c := by
  intro l
  induction l with
  | nil => intro c tl; simp
  | cons x rest ih =>
    intro c tl
    rw [List.cons_append]
    show (x :: (rest ++ c :: tl))[rest.length + 1]? = some c
    rw [List.getElem?_cons_succ]
    exact ih c tl

theorem getElem?_append_length_succ {A : Type} (l : List A) (c d : A)
    (tl : List A) : (l ++ c :: d :: tl)[l.length + 1]? = some d := by
  have e : l ++ c :: d :: tl = (l ++ [c]) ++ d :: tl := by simp
  have e2 : l.length + 1 = (l ++ [c]).length := by simp
  rw [e, e2]
  exact getElem?_append_length (l ++ [c]) d tl

theorem getElem?_append_last {A : Type} (l tl : List A) (q : A)
    (h : l.getLast? = some q) : (l ++ tl)[l.length - 1]? = some q := by
  have hne : l ≠ [] := by
    intro hh
    rw [hh] at h
    cases h
  have hlt : l.length - 1 < l.length := by
    have := List.length_pos.mpr hne
    omega
  rw [List.getElem?_append_left hlt, ← List.getLast?_eq_getElem?]
  exact h

theorem no_target_mem (targetId : String) (pre : List Nat) (i : Nat)
    (l : List FavItem) (h : listHas targetId l = false) :
    ∀ e ∈ flatWithPath pre i l, (idOf e.1 == targetId) = false := by
  have h2 := findIdx_none_of_no_target targetId pre i l h
  rw [List.findIdx?_eq_none_iff] at h2
  intro e he
  have h3 := h2 e he
  revert h3
  cases (idOf e.1 == targetId) <;> simp

theorem dropLast_ne_of_long (q pre : List Nat) (h : pre.length + 2 ≤ q.length) :
    q.dropLast ≠ pre := by
  intro hc
  have h2 := congrArg List.length hc
  rw [List.length_dropLast] at h2
  omega

theorem subtreeHas_of_id (targetId : String) (x : FavItem)
    (h : idOf x = targetId) : subtreeHas targetId x = true := by
  cases x with
  | chan i a b c =>
    rw [subtreeHas]
    exact beq_iff_eq.mpr h
  | folder i n cs =>
    rw [subtreeHas]
    have h2 : (i == targetId) = true := beq_iff_eq.mpr h
    rw [h2, Bool.true_or]

/-! The glue between the walk of one child list and the already-passed
siblings of that list: with no sibling passed yet the walk is
specMoveList, otherwise the last passed sibling is in hand and the walk
is specMoveAux. -/

def glueSpec (up : Bool) (targetId : String) (l1 l : List FavItem) :
    List FavItem :=
  match l1.getLast? with
  | none => specMoveList up targetId l
  | some prev => l1.dropLast ++ specMoveAux up targetId prev l

theorem glueSpec_nil (up : Bool) (targetId : String) (l : List FavItem) :
    glueSpec up targetId [] l = specMoveList up targetId l := rfl

theorem glueSpec_concat (up : Bool) (targetId : String) (l1 : List FavItem)
    (prev : FavItem) (l : List FavItem) :
    glueSpec up targetId (l1 ++ [prev]) l
      = l1 ++ specMoveAux up targetId prev l := by
  simp [glueSpec, getLast?_concat2, List.dropLast_concat]

/-! Evaluation of glueSpec at each case of the sibling rule. -/

theorem glue_up_swap (targetId : String) (l1 : List FavItem) (prev x : FavItem)
    (rest : List FavItem) (hl1 : l1.getLast? = some prev)
    (hx : idOf x = targetId) (hk : noKids prev = true) :
    glueSpec true targetId l1 (x :: rest)
      = l1.dropLast ++ x :: prev :: rest := by
  rw [getLast?_decomp l1 prev hl1, glueSpec_concat, List.dropLast_concat]
  rw [specMoveAux_cons, if_pos (subtreeHas_of_id targetId x hx), if_pos hx,
    if_pos rfl, if_pos hk]

theorem glue_up_noop_nil (targetId : String) (x : FavItem)
    (rest : List FavItem) (hx : idOf x = targetId) :
    glueSpec true targetId [] (x :: rest) = [] ++ x :: rest := by
  rw [glueSpec_nil, specMoveList_cons, if_pos (subtreeHas_of_id targetId x hx),
    if_pos hx, if_pos rfl, List.nil_append]

theorem glue_up_noop_prev (targetId : String) (l1 : List FavItem)
    (prev x : FavItem) (rest : List FavItem) (hl1 : l1.getLast? = some prev)
    (hx : idOf x = targetId) (hk : noKids prev = false) :
    glueSpec true targetId l1 (x :: rest) = l1 ++ x :: rest := by
  rw [getLast?_decomp l1 prev hl1, glueSpec_concat]
  rw [specMoveAux_cons, if_pos (subtreeHas_of_id targetId x hx), if_pos hx,
    if_pos rfl, if_neg (by rw [hk]; exact Bool.false_ne_true)]
  simp

theorem glue_down_swap (targetId : String) (l1 : List FavItem) (x r0 : FavItem)
    (rest2 : List FavItem) (hx : idOf x = targetId) (hk : noKids x = true) :
    glueSpec false targetId l1 (x :: r0 :: rest2) = l1 ++ r0 :: x :: rest2 := by
  cases hl1 : l1.getLast? with
  | none =>
    have h0 : l1 = [] := (getLast?_none_iff l1).mp hl1
    subst h0
    rw [glueSpec_nil, specMoveList_cons, if_pos (subtreeHas_of_id targetId x hx),
      if_pos hx, if_neg Bool.false_ne_true]
    show (if noKids x = true then r0 :: x :: rest2 else x :: r0 :: rest2)
        = [] ++ r0 :: x :: rest2
    rw [if_pos hk, List.nil_append]
  | some prev =>
    rw [getLast?_decomp l1 prev hl1, glueSpec_concat]
    rw [specMoveAux_cons, if_pos (subtreeHas_of_id targetId x hx), if_pos hx,
      if_neg Bool.false_ne_true]
    show l1.dropLast ++
        (if noKids x = true then prev :: r0 :: x :: rest2
          else prev :: x :: r0 :: rest2)
      = (l1.dropLast ++ [prev]) ++ r0 :: x :: rest2
    rw [if_pos hk]
    simp

theorem glue_down_last (targetId : String) (l1 : List FavItem) (x : FavItem)
    (hx : idOf x = targetId) :
    glueSpec false targetId l1 [x] = l1 ++ [x] := by
  cases hl1 : l1.getLast? with
  | none =>
    have h0 : l1 = [] := (getLast?_none_iff l1).mp hl1
    subst h0
    rw [glueSpec_nil, specMoveList_cons, if_pos (subtreeHas_of_id targetId x hx),
      if_pos hx, if_neg Bool.false_ne_true]
    rfl
  | some prev =>
    rw [getLast?_decomp l1 prev hl1, glueSpec_concat]
    rw [specMoveAux_cons, if_pos (subtreeHas_of_id targetId x hx), if_pos hx,
      if_neg Bool.false_ne_true]
    show l1.dropLast ++ [prev, x] = (l1.dropLast ++ [prev]) ++ [x]
    simp

theorem glue_down_kids (targetId : String) (l1 : List FavItem) (x : FavItem)
    (rest : List FavItem) (hx : idOf x = targetId) (hk : noKids x = false) :
    glueSpec false targetId l1 (x :: rest) = l1 ++ x :: rest := by
  cases rest with
  | nil => exact glue_down_last targetId l1 x hx
  | cons r0 rest2 =>
    cases hl1 : l1.getLast? with
    | none =>
      have h0 : l1 = [] := (getLast?_none_iff l1).mp hl1
      subst h0
      rw [glueSpec_nil, specMoveList_cons, if_pos (subtreeHas_of_id targetId x hx),
        if_pos hx, if_neg Bool.false_ne_true]
      show (if noKids x = true then r0 :: x :: rest2 else x :: r0 :: rest2)
          = [] ++ x :: r0 :: rest2
      rw [if_neg (by rw [hk]; exact Bool.false_ne_true), List.nil_append]
    | some prev =>
      rw [getLast?_decomp l1 prev hl1, glueSpec_concat]
      rw [specMoveAux_cons, if_pos (subtreeHas_of_id targetId x hx), if_pos hx,
        if_neg Bool.false_ne_true]
      show l1.dropLast ++
          (if noKids x = true then prev :: r0 :: x :: rest2
            else prev :: x :: r0 :: rest2)
        = (l1.dropLast ++ [prev]) ++ x :: r0 :: rest2
      rw [if_neg (by rw [hk]; exact Bool.false_ne_true)]
      simp

theorem glue_skip (up : Bool) (targetId : String) (l1 : List FavItem)
    (x : FavItem) (l : List FavItem) (hs : subtreeHas targetId x = false) :
    glueSpec up targetId (l1 ++ [x]) l = glueSpec up targetId l1 (x :: l) := by
  rw [glueSpec_concat]
  cases hl1 : l1.getLast? with
  | none =>
    have h0 : l1 = [] := (getLast?_none_iff l1).mp hl1
    subst h0
    rw [glueSpec_nil, specMoveList_cons,
      if_neg (by rw [hs]; exact Bool.false_ne_true), List.nil_append]
  | some prev =>
    rw [getLast?_decomp l1 prev hl1, glueSpec_concat]
    rw [specMoveAux_cons, if_neg (by rw [hs]; exact Bool.false_ne_true)]
    simp

theorem glue_descend (up : Bool) (targetId : String) (l1 : List FavItem)
    (x : FavItem) (rest : List FavItem) (hs : subtreeHas targetId x = true)
    (hne : ¬ idOf x = targetId) :
    glueSpec up targetId l1 (x :: rest)
      = l1 ++ specDescend up targetId x :: rest := by
  cases hl1 : l1.getLast? with
  | none =>
    have h0 : l1 = [] := (getLast?_none_iff l1).mp hl1
    subst h0
    rw [glueSpec_nil, specMoveList_cons, if_pos hs, if_neg hne, List.nil_append]
  | some prev =>
    rw [getLast?_decomp l1 prev hl1, glueSpec_concat]
    rw [specMoveAux_cons, if_pos hs, if_neg hne]
    simp

/-! The core case: the first depth-first occurrence of the id sits at the
head of the remaining sibling list, and moveFavoriteUpDown performs (or
refuses) the swap exactly as the sibling rule demands. -/

theorem move_found (dir targetId : String) (items : List FavItem)
    (pre : List Nat) (l1 : List FavItem) (x : FavItem) (rest : List FavItem)
    (A B : List (FavItem × List Nat))
    (hflat : flatWithPath [] 0 items
      = A ++ flatWithPath pre l1.length (x :: rest) ++ B)
    (hA : ∀ e ∈ A, (idOf e.1 == targetId) = false)
    (hget : getListAt items pre = some (l1 ++ x :: rest))
    (hx : idOf x = targetId)
    (hupNone : l1 = [] → ∀ q, A.getLast? = some q → q.2.dropLast ≠ pre)
    (hupPrevK : ∀ prev, l1.getLast? = some prev → noKids prev = true →
        A.getLast? = some (prev, pre ++ [l1.length - 1]))
    (hupPrevNoK : ∀ prev, l1.getLast? = some prev → noKids prev = false →
        ∀ q, A.getLast? = some q → q.2.dropLast ≠ pre)
    (hdown : ∀ q, B.head? = some q → 1 ≤ q.2.length ∧ q.2.length ≤ pre.length) :
    moveFavoriteUpDown items targetId dir
      = setListAt items (glueSpec (dir == "up") targetId l1 (x :: rest)) pre := by
  have hflat2 : flatWithPath [] 0 items
      = A ++ (x, pre ++ [l1.length]) ::
          ((flatWithPath (pre ++ [l1.length]) 0 (kids x)
            ++ flatWithPath pre (l1.length + 1) rest) ++ B) := by
    rw [hflat, flatWithPath_cons]
    simp [List.append_assoc]
  have hfind : List.findIdx? (fun e => idOf e.1 == targetId)
      (flatWithPath [] 0 items) = some A.length := by
    rw [hflat2]
    have h1 := findIdx_first (fun e => idOf e.1 == targetId)
      (x, pre ++ [l1.length])
      ((flatWithPath (pre ++ [l1.length]) 0 (kids x)
        ++ flatWithPath pre (l1.length + 1) rest) ++ B)
      (beq_iff_eq.mpr hx) A 0 hA
    simpa using h1
  have hIdx : (flatWithPath [] 0 items)[A.length]? = some (x, pre ++ [l1.length]) := by
    rw [hflat2]
    exact getElem?_append_length A _ _
  simp only [moveFavoriteUpDown, hfind]
  by_cases hdir : dir = "up"
  · -- direction "up": neighbor above is flat[idx - 1]
    have hbeqT : (dir == "up") = true := beq_iff_eq.mpr hdir
    rw [if_pos hdir, hbeqT]
    cases A with
    | nil =>
      rw [if_pos (show ([] : List (FavItem × List Nat)).length = 0 from rfl)]
      show items = setListAt items (glueSpec true targetId l1 (x :: rest)) pre
      cases hl1 : l1.getLast? with
      | none =>
        have h0 : l1 = [] := (getLast?_none_iff l1).mp hl1
        subst h0
        rw [glue_up_noop_nil targetId x rest hx]
        exact (getListAt_set_self pre items _ hget).symm
      | some prev =>
        cases hnkp : noKids prev with
        | true => exact absurd (hupPrevK prev hl1 hnkp) (by simp)
        | false =>
          rw [glue_up_noop_prev targetId l1 prev x rest hl1 hx hnkp]
          exact (getListAt_set_self pre items _ hget).symm
    | cons q0 A2 =>
      rw [if_neg (by simp)]
      cases hqL : (q0 :: A2).getLast? with
      | none => exact absurd ((getLast?_none_iff _).mp hqL) (by simp)
      | some qL =>
        have hPrev : (flatWithPath [] 0 items)[(q0 :: A2).length - 1]? = some qL := by
          rw [hflat2]
          exact getElem?_append_last _ _ qL hqL
        simp only [hIdx, hPrev]
        cases hl1 : l1.getLast? with
        | none =>
          have h0 : l1 = [] := (getLast?_none_iff l1).mp hl1
          subst h0
          have hne := hupNone rfl qL hqL
          rw [if_neg (by
            intro hc
            rw [List.dropLast_concat] at hc
            exact hne hc.symm)]
          rw [glue_up_noop_nil targetId x rest hx]
          exact (getListAt_set_self pre items _ hget).symm
        | some prev =>
          cases hnkp : noKids prev with
          | false =>
            have hne := hupPrevNoK prev hl1 hnkp qL hqL
            rw [if_neg (by
              intro hc
              rw [List.dropLast_concat] at hc
              exact hne hc.symm)]
            rw [glue_up_noop_prev targetId l1 prev x rest hl1 hx hnkp]
            exact (getListAt_set_self pre items _ hget).symm
          | true =>
            have hqEq : qL = (prev, pre ++ [l1.length - 1]) :=
              Option.some.inj (hqL.symm.trans (hupPrevK prev hl1 hnkp))
            subst hqEq
            rw [if_pos (by
              show (pre ++ [l1.length]).dropLast
                = (pre ++ [l1.length - 1]).dropLast
              rw [List.dropLast_concat, List.dropLast_concat])]
            simp only [List.dropLast_concat, hget, getLast?_concat2]
            obtain ⟨l1p, rfl⟩ : ∃ l1p, l1 = l1p ++ [prev] :=
              ⟨l1.dropLast, getLast?_decomp l1 prev hl1⟩
            have e1 : (l1p ++ [prev]).length = l1p.length + 1 := by simp
            rw [e1, show l1p.length + 1 - 1 = l1p.length from rfl,
              List.append_assoc, List.singleton_append,
              listSwap_adjacent_up l1p prev x rest]
            rw [glue_up_swap targetId (l1p ++ [prev]) prev x rest
              (getLast?_concat2 l1p prev) hx hnkp, List.dropLast_concat]
  · -- any other direction: neighbor below is flat[idx + 1]
    have hbeqF : (dir == "up") = false := beq_eq_false_iff_ne.mpr hdir
    rw [if_neg hdir, hbeqF]
    cases hkd : kids x with
    | nil =>
      have hnk : noKids x = true := by rw [noKids_iff_kids, hkd]; rfl
      cases rest with
      | nil =>
        have hflat3 : flatWithPath [] 0 items
            = A ++ (x, pre ++ [l1.length]) :: B := by
          rw [hflat2, hkd, flatWithPath_nil, flatWithPath_nil]
          rfl
        cases B with
        | nil =>
          rw [if_neg (by rw [hflat3]; simp)]
          show items = setListAt items (glueSpec false targetId l1 [x]) pre
          rw [glue_down_last targetId l1 x hx]
          exact (getListAt_set_self pre items _ hget).symm
        | cons q B2 =>
          have hlen : A.length + 1 < (flatWithPath [] 0 items).length := by
            rw [hflat3, List.length_append, List.length_cons, List.length_cons]
            omega
          have hNext : (flatWithPath [] 0 items)[A.length + 1]? = some q := by
            rw [hflat3]
            exact getElem?_append_length_succ A _ q B2
          rw [if_pos hlen]
          simp only [hIdx, hNext]
          obtain ⟨hq1, hq2⟩ := hdown q rfl
          rw [if_neg (by
            intro hc
            rw [List.dropLast_concat] at hc
            have hc2 := congrArg List.length hc
            rw [List.length_dropLast] at hc2
            omega)]
          rw [glue_down_last targetId l1 x hx]
          exact (getListAt_set_self pre items _ hget).symm
      | cons r0 rest2 =>
        have hflat3 : flatWithPath [] 0 items
            = A ++ (x, pre ++ [l1.length]) :: (r0, pre ++ [l1.length + 1]) ::
                ((flatWithPath (pre ++ [l1.length + 1]) 0 (kids r0)
                  ++ flatWithPath pre (l1.length + 1 + 1) rest2) ++ B) := by
          rw [hflat2, hkd, flatWithPath_nil, flatWithPath_cons]
          simp [List.append_assoc]
        have hlen : A.length + 1 < (flatWithPath [] 0 items).length := by
          rw [hflat3, List.length_append, List.length_cons, List.length_cons]
          omega
        have hNext : (flatWithPath [] 0 items)[A.length + 1]?
            = some (r0, pre ++ [l1.length + 1]) := by
          rw [hflat3]
          exact getElem?_append_length_succ A _ _ _
        rw [if_pos hlen]
        simp only [hIdx, hNext]
        rw [if_pos (by
          show (pre ++ [l1.length]).dropLast = (pre ++ [l1.length + 1]).dropLast
          rw [List.dropLast_concat, List.dropLast_concat])]
        simp only [List.dropLast_concat, hget, getLast?_concat2]
        rw [listSwap_adjacent_down l1 x r0 rest2]
        rw [glue_down_swap targetId l1 x r0 rest2 hx hnk]
    | cons c0 cs0 =>
      have hnk : noKids x = false := by rw [noKids_iff_kids, hkd]; rfl
      have hflat3 : flatWithPath [] 0 items
          = A ++ (x, pre ++ [l1.length]) ::
              (c0, (pre ++ [l1.length]) ++ [0]) ::
              (((flatWithPath ((pre ++ [l1.length]) ++ [0]) 0 (kids c0)
                  ++ flatWithPath (pre ++ [l1.length]) 1 cs0)
                ++ flatWithPath pre (l1.length + 1) rest) ++ B) := by
        rw [hflat2, hkd, flatWithPath_cons]
        simp [List.append_assoc]
      have hlen : A.length + 1 < (flatWithPath [] 0 items).length := by
        rw [hflat3, List.length_append, List.length_cons, List.length_cons]
        omega
      have hNext : (flatWithPath [] 0 items)[A.length + 1]?
          = some (c0, (pre ++ [l1.length]) ++ [0]) := by
        rw [hflat3]
        exact getElem?_append_length_succ A _ _ _
      rw [if_pos hlen]
      simp only [hIdx, hNext]
      rw [if_neg (by
        intro hc
        rw [List.dropLast_concat, List.dropLast_concat] at hc
        simpa using congrArg List.length hc)]
      rw [glue_down_kids targetId l1 x rest hx hnk]
      exact (getListAt_set_self pre items _ hget).symm

/-! The walk invariant: over any child list whose flat block sits between
A and B in the full flattened sequence, with the stated boundary facts,
moveFavoriteUpDown rewrites exactly that list by the sibling rule. -/

def levelP (dir targetId : String) (l : List FavItem) : Prop :=
  ∀ (l1 : List FavItem) (pre : List Nat) (items : List FavItem)
    (A B : List (FavItem × List Nat)),
    flatWithPath [] 0 items = A ++ flatWithPath pre l1.length l ++ B →
    (∀ e ∈ A, (idOf e.1 == targetId) = false) →
    getListAt items pre = some (l1 ++ l) →
    listHas targetId l = true →
    (l1 = [] → ∀ q, A.getLast? = some q → q.2.dropLast ≠ pre) →
    (∀ prev, l1.getLast? = some prev → noKids prev = true →
        A.getLast? = some (prev, pre ++ [l1.length - 1])) →
    (∀ prev, l1.getLast? = some prev → noKids prev = false →
        ∀ q, A.getLast? = some q → q.2.dropLast ≠ pre) →
    (∀ q, B.head? = some q → 1 ≤ q.2.length ∧ q.2.length ≤ pre.length) →
    moveFavoriteUpDown items targetId dir
      = setListAt items (glueSpec (dir == "up") targetId l1 l) pre

theorem levelP_found (dir targetId : String) (x : FavItem)
    (rest : List FavItem) (hx : idOf x = targetId) :
    levelP dir targetId (x :: rest) := by
  intro l1 pre items A B hflat hA hget _hl hupNone hupPrevK hupPrevNoK hdown
  exact move_found dir targetId items pre l1 x rest A B hflat hA hget hx
    hupNone hupPrevK hupPrevNoK hdown

theorem levelP_skip (dir targetId : String) (x : FavItem)
    (rest : List FavItem) (hs : subtreeHas targetId x = false)
    (ih : levelP dir targetId rest) : levelP dir targetId (x :: rest) := by
  intro l1 pre items A B hflat hA hget hl hupNone hupPrevK hupPrevNoK hdown
  have hlr : listHas targetId rest = true := by
    rw [listHas, hs, Bool.false_or] at hl
    exact hl
  have hsplit : flatWithPath pre l1.length (x :: rest)
      = flatWithPath pre l1.length [x]
        ++ flatWithPath pre (l1.length + 1) rest := by
    have h1 := flatWithPath_append pre [x] rest l1.length
    simpa using h1
  have hflat2 : flatWithPath [] 0 items
      = (A ++ flatWithPath pre l1.length [x])
        ++ flatWithPath pre (l1 ++ [x]).length rest ++ B := by
    rw [hflat, hsplit]
    have e1 : (l1 ++ [x]).length = l1.length + 1 := by simp
    rw [e1]
    simp [List.append_assoc]
  have hA2 : ∀ e ∈ A ++ flatWithPath pre l1.length [x],
      (idOf e.1 == targetId) = false := by
    intro e he
    rcases List.mem_append.mp he with h | h
    · exact hA e h
    · exact no_target_mem targetId pre l1.length [x] (by simp [listHas, hs]) e h
  have hget2 : getListAt items pre = some ((l1 ++ [x]) ++ rest) := by
    rw [hget]
    simp
  have hl1x : (l1 ++ [x]).getLast? = some x := getLast?_concat2 l1 x
  have hupNone2 : l1 ++ [x] = [] → ∀ q,
      (A ++ flatWithPath pre l1.length [x]).getLast? = some q →
      q.2.dropLast ≠ pre := by
    intro h
    exact absurd h (by simp)
  have hupPrevK2 : ∀ prev, (l1 ++ [x]).getLast? = some prev →
      noKids prev = true →
      (A ++ flatWithPath pre l1.length [x]).getLast?
        = some (prev, pre ++ [(l1 ++ [x]).length - 1]) := by
    intro prev hp hk
    have hxp : x = prev := Option.some.inj (hl1x.symm.trans hp)
    subst hxp
    rw [flatWithPath_block_childless pre l1.length x hk, getLast?_concat2]
    have e1 : (l1 ++ [x]).length - 1 = l1.length := by simp
    rw [e1]
  have hupPrevNoK2 : ∀ prev, (l1 ++ [x]).getLast? = some prev →
      noKids prev = false → ∀ q,
      (A ++ flatWithPath pre l1.length [x]).getLast? = some q →
      q.2.dropLast ≠ pre := by
    intro prev hp hk q hq
    have hxp : x = prev := Option.some.inj (hl1x.symm.trans hp)
    subst hxp
    rcases noKids_false_elim x hk with ⟨f, n, c0, cs0, rfl⟩
    cases hbl : (flatWithPath pre l1.length
        [FavItem.folder f n (c0 :: cs0)]).getLast? with
    | none =>
      exact absurd ((getLast?_none_iff _).mp hbl)
        (flatWithPath_ne_nil pre l1.length _ [])
    | some e =>
      have hqe : e = q :=
        Option.some.inj ((getLast?_append_right2 _ e hbl A).symm.trans hq)
      subst hqe
      exact dropLast_ne_of_long e.2 pre
        (flatWithPath_block_last_deep pre l1.length f n c0 cs0 e hbl)
  have hres := ih (l1 ++ [x]) pre items (A ++ flatWithPath pre l1.length [x]) B
    hflat2 hA2 hget2 hlr hupNone2 hupPrevK2 hupPrevNoK2 hdown
  rw [hres, glue_skip (dir == "up") targetId l1 x rest hs]

theorem levelP_descend (dir targetId fid fn : String) (cs rest : List FavItem)
    (hne : (fid == targetId) = false) (hcs : listHas targetId cs = true)
    (ihcs : levelP dir targetId cs) :
    levelP dir targetId (FavItem.folder fid fn cs :: rest) := by
  intro l1 pre items A B hflat hA hget _hl hupNone hupPrevK hupPrevNoK hdown
  have hIdxL : (l1 ++ FavItem.folder fid fn cs :: rest)[l1.length]?
      = some (FavItem.folder fid fn cs) := getElem?_append_length l1 _ rest
  have hget2 : getListAt items (pre ++ [l1.length]) = some cs :=
    getListAt_snoc pre items (l1 ++ FavItem.folder fid fn cs :: rest)
      l1.length fid fn cs hget hIdxL
  have hflat2 : flatWithPath [] 0 items
      = (A ++ [(FavItem.folder fid fn cs, pre ++ [l1.length])])
        ++ flatWithPath (pre ++ [l1.length]) 0 cs
        ++ (flatWithPath pre (l1.length + 1) rest ++ B) := by
    rw [hflat, flatWithPath_cons]
    show A ++ ((FavItem.folder fid fn cs, pre ++ [l1.length]) ::
        (flatWithPath (pre ++ [l1.length]) 0 (kids (FavItem.folder fid fn cs))
          ++ flatWithPath pre (l1.length + 1) rest)) ++ B = _
    rw [kids]
    simp [List.append_assoc]
  have hA2 : ∀ e ∈ A ++ [(FavItem.folder fid fn cs, pre ++ [l1.length])],
      (idOf e.1 == targetId) = false := by
    intro e he
    rcases List.mem_append.mp he with h | h
    · exact hA e h
    · rw [List.mem_singleton] at h
      rw [h]
      exact hne
  have hupNone2 : ([] : List FavItem) = [] → ∀ q,
      (A ++ [(FavItem.folder fid fn cs, pre ++ [l1.length])]).getLast? = some q →
      q.2.dropLast ≠ pre ++ [l1.length] := by
    intro _ q hq
    have hq2 : (FavItem.folder fid fn cs, pre ++ [l1.length]) = q :=
      Option.some.inj ((getLast?_concat2 A _).symm.trans hq)
    rw [← hq2]
    show (pre ++ [l1.length]).dropLast ≠ pre ++ [l1.length]
    rw [List.dropLast_concat]
    intro hc
    simpa using congrArg List.length hc
  have hdown2 : ∀ q, (flatWithPath pre (l1.length + 1) rest ++ B).head? = some q →
      1 ≤ q.2.length ∧ q.2.length ≤ (pre ++ [l1.length]).length := by
    intro q hq
    cases rest with
    | nil =>
      rw [flatWithPath_nil, List.nil_append] at hq
      obtain ⟨h1, h2⟩ := hdown q hq
      refine ⟨h1, ?_⟩
      rw [List.length_append]
      simp
      omega
    | cons r0 rest2 =>
      rw [flatWithPath_cons, List.cons_append, List.head?_cons] at hq
      rw [← Option.some.inj hq]
      constructor <;> simp
  have hres := ihcs [] (pre ++ [l1.length]) items
    (A ++ [(FavItem.folder fid fn cs, pre ++ [l1.length])])
    (flatWithPath pre (l1.length + 1) rest ++ B)
    hflat2 hA2 hget2 hcs hupNone2
    (by intro prev hp _; exact absurd hp (by simp))
    (by intro prev hp _ q _; exact absurd hp (by simp))
    hdown2
  rw [hres, glueSpec_nil]
  rw [setListAt_snoc pre items (l1 ++ FavItem.folder fid fn cs :: rest)
    (specMoveList (dir == "up") targetId cs) l1.length fid fn cs hget hIdxL]
  have hset : (l1 ++ FavItem.folder fid fn cs :: rest).set l1.length
      (FavItem.folder fid fn (specMoveList (dir == "up") targetId cs))
      = l1 ++ FavItem.folder fid fn
          (specMoveList (dir == "up") targetId cs) :: rest := by
    have h1 := set_append_ge l1 (FavItem.folder fid fn cs :: rest) 0
      (FavItem.folder fid fn (specMoveList (dir == "up") targetId cs))
    rw [Nat.add_zero] at h1
    rw [h1, List.set_cons_zero]
  rw [hset]
  rw [glue_descend (dir == "up") targetId l1 (FavItem.folder fid fn cs) rest
    (by rw [subtreeHas, hne, Bool.false_or]; exact hcs)
    (by
      intro hc
      have hc2 : (fid == targetId) = true := beq_iff_eq.mpr hc
      rw [hne] at hc2
      exact Bool.false_ne_true hc2)]
  rw [specDescend_folder]

theorem levelP_all (dir targetId : String) :
    ∀ l, levelP dir targetId l := by
  intro l
  induction l using forest_induction with
  | hnil =>
    intro l1 pre items A B _ _ _ hl _ _ _ _
    rw [listHas] at hl
    exact absurd hl Bool.false_ne_true
  | hchan i a b c rest ih =>
    cases hf : (i == targetId) with
    | true =>
      exact levelP_found dir targetId (FavItem.chan i a b c) rest
        (beq_iff_eq.mp hf)
    | false =>
      exact levelP_skip dir targetId (FavItem.chan i a b c) rest
        (by rw [subtreeHas]; exact hf) ih
  | hfolder fid fn cs rest ihcs ih =>
    cases hf : (fid == targetId) with
    | true =>
      exact levelP_found dir targetId (FavItem.folder fid fn cs) rest
        (beq_iff_eq.mp hf)
    | false =>
      cases hcs : listHas targetId cs with
      | true => exact levelP_descend dir targetId fid fn cs rest hf hcs ihcs
      | false =>
        exact levelP_skip dir targetId (FavItem.folder fid fn cs) rest
          (by rw [subtreeHas, hf, hcs]; rfl) ih

/-- C7: for every favorites forest, entry id and direction,
moveFavoriteUpDown equals the sibling rule on the parent list holding the
first depth-first occurrence of the id: moving down swaps the entry with
its next sibling exactly when the entry has no children (otherwise its
flattened neighbor is its own first child, which lives in a different
parent list, and nothing changes), moving up swaps it with its previous
sibling exactly when that sibling has no children (otherwise the
flattened neighbor is that sibling's last descendant, again in a
different parent list, and nothing changes); at the boundary of the list
with no neighbor in the requested direction, and when the id occurs
nowhere in the forest, the forest is returned entirely unchanged. -/
theorem move_up_down_spec (items : List FavItem) (targetId dir : String) :
    moveFavoriteUpDown items targetId dir
      = specMoveList (dir == "up") targetId items := by
  cases hl : listHas targetId items with
  | true =>
    have h := levelP_all dir targetId items [] [] items [] []
      (by simp)
      (by intro e he; simp at he)
      (by rw [getListAt]; rfl)
      hl
      (by
        intro h0 q hq
        exact absurd hq (by simp))
      (by intro prev hp hk; exact absurd hp (by simp))
      (by intro prev hp hk q hq; exact absurd hp (by simp))
      (by intro q hq; exact absurd hq (by simp))
    rw [h, setListAt, glueSpec_nil]
  | false =>
    have hfind : List.findIdx? (fun e => idOf e.1 == targetId)
        (flatWithPath [] 0 items) = none :=
      findIdx_none_of_no_target targetId [] 0 items hl
    have h1 : moveFavoriteUpDown items targetId dir = items := by
      simp only [moveFavoriteUpDown, hfind]
    rw [h1, (spec_no_target (dir == "up") targetId items hl).1]

end WorldMedia
